import Mathlib

/-!
# WordCloud: a verification development

A shallow embedding of `WordCloud.cpp` (word filter, word counter, report
step and the control flow of `main`) and theorems about it.

Modelling conventions.

* A C++ `char` is modelled by its unsigned byte value, `Fin 256`; a
  `std::string` is a list of bytes (it may contain the NUL byte).
* `std::map<string,int>` is modelled by the list of its entries in iteration
  order, that is, in strictly increasing key order (`std::less<std::string>`,
  byte-wise lexicographic).
* An `int` is a 32-bit two's-complement integer: the increment of a count
  wraps from `2^31 - 1` to `-2^31` (`wrapInt`), which is what the compiled
  program does; the C++ standard leaves this overflow undefined.
* The character classes (`isspace`, `ispunct`, `tolower`) are those of the
  "C" locale, the one in force since the program never calls `setlocale`; on
  the bytes above 127 the classes are false and `tolower` is the identity.
* Standard output is modelled by the sequence of `printf` calls with their
  arguments.
-/

namespace WordCloud

/-- One C++ `char`, as its unsigned byte value. -/
abbrev Byte := Fin 256

/-- A `std::string`: a finite sequence of bytes. -/
abbrev Str := List Byte

/-- The bytes of an ASCII string literal of the source. -/
def ascii (s : String) : Str :=
  s.toList.map (fun c => ⟨c.toNat % 256, Nat.mod_lt _ (by decide)⟩)

/-- The array `IGNORES` of the source (lines 55-57), duplicates included. -/
def IGNORES : List Str :=
  [ascii "a", ascii "an", ascii "am", ascii "and", ascii "the", ascii "you", ascii "me",
   ascii "my", ascii "us", ascii "be", ascii "it", ascii "us", ascii "he", ascii "she",
   ascii "him", ascii "her", ascii "his", ascii "hers",
   ascii "ye", ascii "your", ascii "so", ascii "or", ascii "is", ascii "isnt", ascii "not",
   ascii "mr", ascii "mrs", ascii "ms", ascii "dr", ascii "sr", ascii "they", ascii "thy",
   ascii "we", ascii "of", ascii "to", ascii "its",
   ascii "i", ascii "on", ascii "oh", ascii "if", ascii "as", ascii "by", ascii "them",
   ascii "our", ascii "in", ascii "for", ascii "do", ascii "dont", ascii "does",
   ascii "doesnt", ascii "did", ascii "at", ascii "are", ascii "did"]

/-- The buffer returned by `std::string::c_str`: the bytes of the string followed
by the terminating NUL. -/
def c_str (s : Str) : Str := s ++ [0]

/-- The C library function `strncmp` on two NUL-terminated buffers: at most `n`
bytes are compared, and bytes after a NUL are not compared. The result is zero,
or the difference of the first pair of bytes that differ. The last equation is
never reached on NUL-terminated buffers (the comparison stops at the NUL) and
stands for reading past the end of a buffer. -/
def strncmp : Str → Str → Nat → Int
  | _, _, 0 => 0
  | a :: s1, b :: s2, n + 1 =>
    if a ≠ b then (a.val : Int) - (b.val : Int)
    else if a = 0 then 0
    else strncmp s1 s2 n
  | _, _, _ + 1 => 0

/-- The member `std::string::find_first_not_of(chars)`: the index of the first
byte of `s` that is not in `chars`; `none` stands for `string::npos`. -/
def find_first_not_of (s : Str) (chars : Str) : Option Nat :=
  match s with
  | [] => none
  | c :: cs =>
    if chars.contains c then (find_first_not_of cs chars).map (· + 1) else some 0

/-- The function `goodWord` of the source (lines 101-134). -/
def goodWord (word : Str) (startswith : Str := []) : Bool :=
  if word.isEmpty then false
  else if IGNORES.any (fun ignore => word == ignore) then false
  else if startswith != [] &&
      strncmp (c_str word) (c_str startswith) startswith.length != 0 then false
  else if find_first_not_of word (ascii "abcdefghijklmnopqrstuvwxyz") != none then false
  else true

/-- The C library function `isspace` in the "C" locale: space, and the controls
`\t \n \v \f \r`. This is the class at which `operator>>` splits. -/
def isspace (c : Byte) : Bool := c.val = 32 || (9 ≤ c.val && c.val ≤ 13)

/-- The C library function `ispunct` in the "C" locale: the printable ASCII
characters that are neither a space nor alphanumeric. -/
def ispunct (c : Byte) : Bool :=
  (33 ≤ c.val && c.val ≤ 47) || (58 ≤ c.val && c.val ≤ 64) ||
  (91 ≤ c.val && c.val ≤ 96) || (123 ≤ c.val && c.val ≤ 126)

/-- The C library function `tolower` in the "C" locale. -/
def tolower (c : Byte) : Byte := if 65 ≤ c.val ∧ c.val ≤ 90 then c + 32 else c

/-- The normalization of a token in `buildWordMap` (lines 152-153): `transform`
with `::tolower`, then `erase(remove_if(..., ::ispunct))`. -/
def normalize (word : Str) : Str := (word.map tolower).filter (fun c => !ispunct c)

/-- The order `std::less<std::string>` of the map: byte-wise lexicographic, a
proper prefix being smaller. -/
def strLess : Str → Str → Bool
  | [], [] => false
  | [], _ :: _ => true
  | _ :: _, [] => false
  | a :: s1, b :: s2 => if a < b then true else if b < a then false else strLess s1 s2

/-- A `std::map<string,int>`, as the list of its entries in iteration order. -/
abbrev WordMap := List (Str × Int)

/-- The keys of a map, in iteration order. -/
def WordMap.keys (m : WordMap) : List Str := m.map Prod.fst

/-- The representation invariant of `std::map`: keys strictly increasing. -/
def WordMap.Sorted (m : WordMap) : Prop := m.keys.Pairwise (fun a b => strLess a b = true)

/-- The value stored under `key` (`std::map::find`), if any. -/
def WordMap.find (m : WordMap) (key : Str) : Option Int :=
  match m with
  | [] => none
  | (k, v) :: rest => if key = k then some v else WordMap.find rest key

/-- The number of occurrences recorded for `key`: its value, or zero when the
key is absent. -/
def WordMap.count (m : WordMap) (key : Str) : Int := (m.find key).getD 0

/-- The value that a C++ `int` takes for the mathematical result `x` of an
operation: `x` reduced modulo `2^32` into the range from `-2^31` to `2^31 - 1`. -/
def wrapInt (x : Int) : Int := (x + 2147483648) % 4294967296 - 2147483648

/-- The statement `wordCloud[word]++` (line 158): `operator[]` walks to the
place of `word` in key order, inserts the value `0` there when the key is
absent, and the found or inserted value, an `int`, is incremented. -/
def WordMap.increment : WordMap → Str → WordMap
  | [], word => [(word, wrapInt (0 + 1))]
  | (k, v) :: rest, word =>
    if word = k then (k, wrapInt (v + 1)) :: rest
    else if strLess word k then (word, wrapInt (0 + 1)) :: (k, v) :: rest
    else (k, v) :: WordMap.increment rest word

/-- The body of the `while` loop of `buildWordMap` (lines 151-163) for one
extracted token. -/
def processWord (wordCloud : WordMap) (word : Str) (startswith : Str) : WordMap :=
  let word := normalize word
  if goodWord word startswith then wordCloud.increment word else wordCloud

/-- The whitespace skipping done by `operator>>` before it extracts. -/
def skipws : Str → Str
  | [] => []
  | c :: cs => if isspace c then skipws cs else c :: cs

/-- The extraction proper of `operator>>`: bytes are taken up to the next
whitespace byte or the end of the stream. Returns the bytes taken and the rest
of the stream. -/
def readWord : Str → Str × Str
  | [] => ([], [])
  | c :: cs =>
    if isspace c then ([], c :: cs)
    else ((c :: (readWord cs).1), (readWord cs).2)

/-- The expression `wordstream >> word` on a stream with `stream` left to read:
`none` when the extraction fails (nothing but whitespace is left), else the
token and the rest of the stream. -/
def extract (stream : Str) : Option (Str × Str) :=
  match skipws stream with
  | [] => none
  | c :: cs => some (readWord (c :: cs))

/-- The `while (wordstream >> word)` loop of `buildWordMap` (lines 149-164),
with a bound on the number of iterations. Every iteration consumes at least
one byte, so a bound above the length of the stream is never reached
(`buildWordMapLoop_eq_foldl`). -/
def buildWordMapLoop : Nat → Str → WordMap → Str → WordMap
  | 0, _, wordCloud, _ => wordCloud
  | fuel + 1, stream, wordCloud, startswith =>
    match extract stream with
    | none => wordCloud
    | some (word, rest) =>
      buildWordMapLoop fuel rest (processWord wordCloud word startswith) startswith

/-- The function `buildWordMap` of the source (lines 145-165): the map
`wordCloud` after the call. -/
def buildWordMap (words : Str) (wordCloud : WordMap) (startswith : Str := []) : WordMap :=
  buildWordMapLoop (words.length + 1) words wordCloud startswith

/-- The whitespace-separated tokens of a text: the non-empty pieces between
whitespace bytes. -/
def wsTokens (text : Str) : List Str :=
  (text.splitOnP isspace).filter (fun t => !t.isEmpty)

/-- One call of `printf` made by `main`, with its arguments. -/
inductive Printf where
  /-- The call `printf("\n")` of line 272. -/
  | newline
  /-- The call `printf("%s %d\n", word, count)` of line 284: one report line. -/
  | wordCount (word : Str) (count : Int)
  /-- The usage text of lines 212-232. -/
  | usage
  /-- The message of line 236: the options could not be parsed. -/
  | optionsError
  /-- The message of line 246, with its two arguments in the order printed. -/
  | countsError (maxcounts : Int) (mincounts : Int)
  deriving DecidableEq, Repr

/-- How `main` ends. -/
inductive Termination where
  /-- The call `exit(code)`, or the end of `main` with `code = 0`. -/
  | exit (code : Int)
  /-- The call `abort()`. -/
  | abort
  deriving DecidableEq, Repr

/-- The report loop of `main` (lines 273-285) over the entries of the map in
iteration order: the `printf` calls it makes. -/
def reportLoop (mincounts maxcounts : Int) : WordMap → List Printf
  | [] => []
  | elem :: rest =>
    if mincounts > 0 ∧ elem.2 < mincounts then reportLoop mincounts maxcounts rest
    else if maxcounts > 0 ∧ elem.2 > maxcounts then reportLoop mincounts maxcounts rest
    else Printf.wordCount elem.1 elem.2 :: reportLoop mincounts maxcounts rest

/-- The report step of `main` (lines 270-285). -/
def report (wordCloud : WordMap) (mincounts maxcounts : Int) : List Printf :=
  Printf.newline :: reportLoop mincounts maxcounts wordCloud

/-- The entries on the report lines of an output, in the order printed. -/
def reportEntries : List Printf → List (Str × Int)
  | [] => []
  | Printf.wordCount w c :: out => (w, c) :: reportEntries out
  | _ :: out => reportEntries out

/-- The words on the report lines of an output, in the order printed. -/
def reportWords (out : List Printf) : List Str := (reportEntries out).map Prod.fst

/-- The file system, as far as `fileExist` and `loadFile` see it: the contents
of the file a path names when an `ifstream` on it opens, `none` otherwise. -/
abbrev FileSystem := Str → Option Str

/-- The function `fileExist` of the source (lines 87-91). -/
def fileExist (fs : FileSystem) (maybeFilename : Str) : Bool := (fs maybeFilename).isSome

/-- The function `loadFile` of the source (lines 72-78); a stream that did not
open yields the empty string. -/
def loadFile (fs : FileSystem) (filename : Str) : Str := (fs filename).getD []

/-- One result of `getopt_long` in the loop of line 195, seen through the `switch`
of `main`. For `m` and `n` the argument is the value `atoi(optarg)`; for `s` and
`i` it is the string `optarg`. Results with a null `optarg` under `m`, `n` or
`s`, on which `atoi(optarg)` and `string(optarg)` are undefined, are not
modelled. -/
inductive Opt where
  | m (value : Int)
  | n (value : Int)
  | s (optarg : Str)
  | i (optarg : Str)
  | h
  /-- Any other return value of `getopt_long` (the `default` label). -/
  | other
  deriving DecidableEq, Repr

/-- The option variables of `main` (lines 176-179): the run configuration. -/
structure Config where
  mincounts : Int := 0
  maxcounts : Int := 0
  startswith : Str := []
  input : Str := []
  deriving DecidableEq, Repr

/-- The option loop of `main` (lines 195-239) over the successive results of
`getopt_long`: the configuration after the loop, or the output and termination
when the loop ends the program. -/
def parseOptions : List Opt → Config → Except (List Printf × Termination) Config
  | [], cfg => .ok cfg
  | Opt.m v :: opts, cfg => parseOptions opts { cfg with mincounts := v }
  | Opt.n v :: opts, cfg => parseOptions opts { cfg with maxcounts := v }
  | Opt.s a :: opts, cfg => parseOptions opts { cfg with startswith := a }
  | Opt.i a :: opts, cfg => parseOptions opts { cfg with input := a }
  | Opt.h :: _, _ => .error ([Printf.usage], Termination.abort)
  | Opt.other :: _, _ => .error ([Printf.optionsError], Termination.abort)

/-- The part of `main` after the option loop (lines 243-286), for the run
configuration `cfg`, the last command-line argument `lastArg` (`argv[argc-1]`,
read after `getopt_long` has moved the non-option arguments to the end) and the
file system `fs`: the output and the termination. The macro `DEBUG_PRINT`
expands to nothing (`DEBUG` is 0). -/
def mainAfterOptions (cfg : Config) (lastArg : Str) (fs : FileSystem) :
    List Printf × Termination :=
  if cfg.maxcounts < cfg.mincounts then
    ([Printf.countsError cfg.maxcounts cfg.mincounts], Termination.exit 1)
  else
    let input := if cfg.input = [] then lastArg else cfg.input
    let contents := if fileExist fs input then loadFile fs input else input
    let wordCloud := buildWordMap contents [] cfg.startswith
    (report wordCloud cfg.mincounts cfg.maxcounts, Termination.exit 0)

/-- The function `main` of the source (lines 171-286), for the successive
results `opts` of `getopt_long`. -/
def main (opts : List Opt) (lastArg : Str) (fs : FileSystem) : List Printf × Termination :=
  match parseOptions opts {} with
  | .error r => r
  | .ok cfg => mainAfterOptions cfg lastArg fs

/-- The ASCII punctuation characters as the spec lists them
(`!"#$%&'()*+,-./:;<=>?@[\]^_` and the backquote, braces, bar and tilde). -/
def punctuationSpec : Str :=
  ascii "!\x22#$%&\x27()*+,-./:;<=>?@[\x5c]^_\x60\x7b|\x7d~"

/-- The stop-word set as the spec lists it, each word once. -/
def stopWordsSpec : List Str :=
  [ascii "a", ascii "an", ascii "am", ascii "and", ascii "the", ascii "you", ascii "me",
   ascii "my", ascii "us", ascii "be", ascii "it", ascii "he", ascii "she", ascii "him",
   ascii "her", ascii "his", ascii "hers", ascii "ye", ascii "your", ascii "so", ascii "or",
   ascii "is", ascii "isnt", ascii "not", ascii "mr", ascii "mrs", ascii "ms", ascii "dr",
   ascii "sr", ascii "they", ascii "thy", ascii "we", ascii "of", ascii "to", ascii "its",
   ascii "i", ascii "on", ascii "oh", ascii "if", ascii "as", ascii "by", ascii "them",
   ascii "our", ascii "in", ascii "for", ascii "do", ascii "dont", ascii "does",
   ascii "doesnt", ascii "did", ascii "at", ascii "are"]

/-- The input-resolution step of `main` (lines 256-265): the value of `contents`
for the value `input`. -/
def resolveInput (fs : FileSystem) (input : Str) : Str :=
  if fileExist fs input then loadFile fs input else input

/-- The successive values of `word` in the `while (wordstream >> word)` loop of
`buildWordMap`, with the same bound on the number of iterations as
`buildWordMapLoop`. -/
def extractedWords : Nat → Str → List Str
  | 0, _ => []
  | fuel + 1, stream =>
    match extract stream with
    | none => []
    | some (word, rest) => word :: extractedWords fuel rest

/-- The tokens that `buildWordMap` processes on the text `words`, in order. -/
def tokens (words : Str) : List Str := extractedWords (words.length + 1) words

/-- The decomposition of a text into its maximal runs of non-whitespace bytes:
`MaximalRuns text ts` holds when `text` is whitespace, then the first run, then
a rest that is empty or starts with a whitespace byte and decomposes into the
other runs. -/
inductive MaximalRuns : Str → List Str → Prop where
  | done (sp : Str) (hsp : ∀ c ∈ sp, isspace c = true) : MaximalRuns sp []
  | run (sp t rest : Str) (ts : List Str) (hsp : ∀ c ∈ sp, isspace c = true)
      (hne : t ≠ []) (ht : ∀ c ∈ t, isspace c = false)
      (hrest : rest = [] ∨ ∃ c cs, rest = c :: cs ∧ isspace c = true)
      (hts : MaximalRuns rest ts) : MaximalRuns (sp ++ t ++ rest) (t :: ts)

/-- The normalized form of a token as the spec words it: every letter A-Z is
replaced by the corresponding letter a-z, then every character of the spec's
punctuation list is removed. -/
def normalizeSpec (token : Str) : Str :=
  (token.map (fun c => if 65 ≤ c.val ∧ c.val ≤ 90 then c + 32 else c)).filter
    (fun c => !(punctuationSpec.contains c))

/-! ## The word filter -/

set_option maxRecDepth 100000 in
theorem mem_lowercase_iff (c : Byte) :
    c ∈ ascii "abcdefghijklmnopqrstuvwxyz" ↔ 97 ≤ c.val ∧ c.val ≤ 122 := by
  revert c; decide

theorem find_first_not_of_eq_none (s chars : Str) :
    find_first_not_of s chars = none ↔ ∀ c ∈ s, c ∈ chars := by
  induction s with
  | nil => simp [find_first_not_of]
  | cons c cs ih =>
    by_cases h : c ∈ chars
    · simp [find_first_not_of, h, ih]
    · simp [find_first_not_of, h]

/-- On the buffers of two strings, `strncmp` over the length of a NUL-free second
string is zero exactly when the second string is a prefix of the first. -/
theorem strncmp_c_str_eq_zero (pfx : Str) (hnul : (0 : Byte) ∉ pfx) (word : Str) :
    strncmp (c_str word) (c_str pfx) pfx.length = 0 ↔ word.take pfx.length = pfx := by
  induction pfx generalizing word with
  | nil => simp [strncmp]
  | cons b pfx ih =>
    have hb : b ≠ 0 := fun h => hnul (by simp [h])
    have hp : (0 : Byte) ∉ pfx := fun h => hnul (by simp [h])
    cases word with
    | nil =>
      have hv : (b.val : Int) ≠ 0 := by
        intro h; apply hb; apply Fin.ext; simpa using h
      simp [c_str, strncmp, hb.symm]
      omega
    | cons a word =>
      by_cases hab : a = b
      · subst hab
        have := ih hp word
        simpa [c_str, strncmp, hb] using this
      · have hv : (a.val : Int) - (b.val : Int) ≠ 0 := by
          intro h; apply hab; apply Fin.ext; omega
        simp [c_str, strncmp, hab, hv]

/-- Whatever the prefix, an accepted word is non-empty, is no entry of `IGNORES`
and consists of the letters a-z. -/
theorem goodWord_sound (word pfx : Str) (h : goodWord word pfx = true) :
    word ≠ [] ∧ (∀ s ∈ IGNORES, word ≠ s) ∧ ∀ c ∈ word, 97 ≤ c.val ∧ c.val ≤ 122 := by
  unfold goodWord at h
  split at h
  · simp at h
  · rename_i h1
    split at h
    · simp at h
    · rename_i h2
      split at h
      · simp at h
      · split at h
        · simp at h
        · rename_i h4
          refine ⟨by simpa using h1, ?_, ?_⟩
          · intro s hs hws
            apply h2
            simp only [List.any_eq_true]
            exact ⟨s, hs, by simp [hws]⟩
          · intro c hc
            have h5 : find_first_not_of word (ascii "abcdefghijklmnopqrstuvwxyz") = none := by
              simpa using h4
            exact (mem_lowercase_iff c).1 ((find_first_not_of_eq_none _ _).1 h5 c hc)

/-- The four conditions of `goodWord`, for a prefix without a NUL byte. -/
theorem goodWord_eq_true_iff (word pfx : Str) (hnul : (0 : Byte) ∉ pfx) :
    goodWord word pfx = true ↔
      (word ≠ [] ∧ (∀ s ∈ IGNORES, word ≠ s) ∧
        (pfx = [] ∨ word.take pfx.length = pfx) ∧
        ∀ c ∈ word, 97 ≤ c.val ∧ c.val ≤ 122) := by
  constructor
  · intro h
    obtain ⟨h1, h2, h4⟩ := goodWord_sound word pfx h
    refine ⟨h1, h2, ?_, h4⟩
    by_cases hp : pfx = []
    · exact Or.inl hp
    · right
      rw [← strncmp_c_str_eq_zero pfx hnul word]
      by_contra hne
      have h2b : IGNORES.any (fun ignore => word == ignore) = false := by
        rw [List.any_eq_false]
        intro s hs
        simpa using h2 s hs
      simp [goodWord, h1, h2b, hp, hne] at h
  · rintro ⟨h1, h2, h3, h4⟩
    have h2b : IGNORES.any (fun ignore => word == ignore) = false := by
      rw [List.any_eq_false]
      intro s hs
      simpa using h2 s hs
    have h5 : find_first_not_of word (ascii "abcdefghijklmnopqrstuvwxyz") = none :=
      (find_first_not_of_eq_none _ _).2 (fun c hc => (mem_lowercase_iff c).2 (h4 c hc))
    have h3b : pfx = [] ∨ strncmp (c_str word) (c_str pfx) pfx.length = 0 :=
      h3.imp id (fun h => (strncmp_c_str_eq_zero pfx hnul word).2 h)
    rcases h3b with hp | hs
    · simp [goodWord, h1, h2b, hp, h5]
    · simp [goodWord, h1, h2b, hs, h5]

/-- C1 (amended): for every word and every prefix without a NUL byte,
`goodWord word pfx` is true exactly when the word is non-empty, equals no stop
word, starts with the prefix (or the prefix is empty) and consists of the
letters a-z; being a total Boolean function it is false otherwise and never
fails. -/
theorem goodWord_iff (word pfx : Str) (hnul : (0 : Byte) ∉ pfx) :
    goodWord word pfx = true ↔
      (word ≠ [] ∧ (∀ s ∈ IGNORES, word ≠ s) ∧
        (pfx = [] ∨ word.take pfx.length = pfx) ∧
        ∀ c ∈ word, 97 ≤ c.val ∧ c.val ≤ 122) :=
  goodWord_eq_true_iff word pfx hnul

/-- C1, witness: the word `larry` under the prefix `la`. -/
theorem goodWord_iff_witness :
    (0 : Byte) ∉ ascii "la" ∧
    (goodWord (ascii "larry") (ascii "la") = true ↔
      (ascii "larry" ≠ [] ∧ (∀ s ∈ IGNORES, ascii "larry" ≠ s) ∧
        (ascii "la" = [] ∨ (ascii "larry").take (ascii "la").length = ascii "la") ∧
        ∀ c ∈ ascii "larry", 97 ≤ c.val ∧ c.val ≤ 122)) :=
  ⟨by decide, goodWord_iff (ascii "larry") (ascii "la") (by decide)⟩

/-- C1, counterexample: with the prefix `ab\0c` (four bytes, the third a NUL)
the word `ab` is accepted although it does not start with the prefix:
`strncmp` stops comparing at the NUL. -/
theorem goodWord_iff_fails_nul :
    ¬ (goodWord [97, 98] [97, 98, 0, 99] = true ↔
      (([97, 98] : Str) ≠ [] ∧ (∀ s ∈ IGNORES, ([97, 98] : Str) ≠ s) ∧
        (([97, 98, 0, 99] : Str) = [] ∨
          ([97, 98] : Str).take ([97, 98, 0, 99] : Str).length = [97, 98, 0, 99]) ∧
        ∀ c ∈ ([97, 98] : Str), 97 ≤ c.val ∧ c.val ≤ 122)) := by
  decide

/-! ## The token stream -/

theorem wsTokens_nil : wsTokens [] = [] := by
  simp [wsTokens, List.splitOnP_nil]

theorem wsTokens_cons_space (c : Byte) (cs : Str) (h : isspace c = true) :
    wsTokens (c :: cs) = wsTokens cs := by
  simp [wsTokens, List.splitOnP_cons, h]

/-- The first piece of a text split at whitespace is what `readWord` takes, and
the later pieces are the pieces of what `readWord` leaves. -/
theorem splitOnP_readWord (s : Str) :
    ∃ t, s.splitOnP isspace = (readWord s).1 :: t ∧
      t.filter (fun t => !t.isEmpty) = wsTokens (readWord s).2 := by
  induction s with
  | nil => exact ⟨[], by simp [List.splitOnP_nil, readWord], by simp [readWord, wsTokens_nil]⟩
  | cons c cs ih =>
    by_cases h : isspace c = true
    · refine ⟨cs.splitOnP isspace, by simp [List.splitOnP_cons, readWord, h], ?_⟩
      simp only [readWord, h, if_true]
      rw [wsTokens_cons_space c cs h]
      rfl
    · obtain ⟨t, ht, hf⟩ := ih
      refine ⟨t, ?_, ?_⟩
      · simp [List.splitOnP_cons, readWord, h, ht, List.modifyHead]
      · simpa [readWord, h] using hf

theorem wsTokens_cons_nonspace (c : Byte) (cs : Str) (h : isspace c = false) :
    wsTokens (c :: cs) = (readWord (c :: cs)).1 :: wsTokens (readWord (c :: cs)).2 := by
  obtain ⟨t, ht, hf⟩ := splitOnP_readWord (c :: cs)
  have hne : (readWord (c :: cs)).1.isEmpty = false := by simp [readWord, h]
  simp only [wsTokens] at hf ⊢
  rw [ht, List.filter_cons, hne, hf]
  simp

theorem wsTokens_skipws (s : Str) : wsTokens (skipws s) = wsTokens s := by
  induction s with
  | nil => rfl
  | cons c cs ih =>
    by_cases h : isspace c = true
    · simp [skipws, h, ih, wsTokens_cons_space]
    · simp [skipws, h]

theorem skipws_head (s : Str) (c : Byte) (cs : Str) (h : skipws s = c :: cs) :
    isspace c = false := by
  induction s with
  | nil => simp [skipws] at h
  | cons d ds ih =>
    by_cases hd : isspace d = true
    · simp only [skipws, hd, if_true] at h
      exact ih h
    · simp only [skipws, hd] at h
      simp only [Bool.false_eq_true, if_false, List.cons.injEq] at h
      rw [← h.1]
      simpa using hd

theorem skipws_length (s : Str) : (skipws s).length ≤ s.length := by
  induction s with
  | nil => simp [skipws]
  | cons c cs ih =>
    by_cases h : isspace c = true
    · simp only [skipws, h, if_true, List.length_cons]; omega
    · simp [skipws, h]

theorem readWord_length (s : Str) : (readWord s).2.length ≤ s.length := by
  induction s with
  | nil => simp [readWord]
  | cons c cs ih =>
    by_cases h : isspace c = true
    · simp [readWord, h]
    · simp only [readWord, h, List.length_cons]
      simp only [Bool.false_eq_true, if_false]
      omega

/-- What one extraction does, in terms of the tokens of the text: it fails when
no token is left, and otherwise yields the first token and a strictly shorter
stream that holds the remaining tokens. -/
theorem extract_spec (s : Str) :
    (extract s = none ∧ wsTokens s = []) ∨
    ∃ word rest, extract s = some (word, rest) ∧ wsTokens s = word :: wsTokens rest ∧
      rest.length < s.length := by
  unfold extract
  cases hs : skipws s with
  | nil =>
    left
    refine ⟨rfl, ?_⟩
    rw [← wsTokens_skipws, hs, wsTokens_nil]
  | cons c cs =>
    right
    have hc := skipws_head s c cs hs
    refine ⟨(readWord (c :: cs)).1, (readWord (c :: cs)).2, rfl, ?_, ?_⟩
    · rw [← wsTokens_skipws, hs, wsTokens_cons_nonspace c cs hc]
    · have h1 := skipws_length s
      have h2 := readWord_length cs
      rw [hs] at h1
      simp only [readWord, hc, List.length_cons] at h1 ⊢
      simp only [Bool.false_eq_true, if_false]
      omega

/-- With a bound above the length of the stream the loop of `buildWordMap` ends
because the extraction fails, having processed every token of the text in
order. -/
theorem buildWordMapLoop_eq_foldl (fuel : Nat) (s : Str) (wc : WordMap) (sw : Str)
    (h : s.length < fuel) :
    buildWordMapLoop fuel s wc sw = (wsTokens s).foldl (fun m t => processWord m t sw) wc := by
  induction fuel generalizing s wc with
  | zero => omega
  | succ n ih =>
    rcases extract_spec s with ⟨he, ht⟩ | ⟨word, rest, he, ht, hl⟩
    · simp [buildWordMapLoop, he, ht]
    · simp only [buildWordMapLoop, he, ht, List.foldl_cons]
      exact ih rest _ (by omega)

theorem buildWordMap_eq_foldl (text : Str) (wc : WordMap) (sw : Str) :
    buildWordMap text wc sw = (wsTokens text).foldl (fun m t => processWord m t sw) wc :=
  buildWordMapLoop_eq_foldl _ _ _ _ (Nat.lt_succ_self _)

/-! ## The key order and the map -/

theorem strLess_irrefl (a : Str) : strLess a a = false := by
  induction a with
  | nil => rfl
  | cons x a ih => simp [strLess, ih]

theorem strLess_trans (a b c : Str) (hab : strLess a b = true) (hbc : strLess b c = true) :
    strLess a c = true := by
  induction a generalizing b c with
  | nil =>
    cases b with
    | nil => simp [strLess] at hab
    | cons y b =>
      cases c with
      | nil => simp [strLess] at hbc
      | cons z c => simp [strLess]
  | cons x a ih =>
    cases b with
    | nil => simp [strLess] at hab
    | cons y b =>
      cases c with
      | nil => simp [strLess] at hbc
      | cons z c =>
        simp only [strLess] at hab hbc ⊢
        by_cases hxy : x < y
        · by_cases hyz : y < z
          · simp [lt_trans hxy hyz]
          · simp only [hyz, if_false] at hbc
            by_cases hzy : z < y
            · simp [hzy] at hbc
            · have hyz2 : y = z := le_antisymm (not_lt.1 hzy) (not_lt.1 hyz)
              subst hyz2
              simp [hxy]
        · simp only [hxy, if_false] at hab
          by_cases hyx : y < x
          · simp [hyx] at hab
          · have hxy2 : x = y := le_antisymm (not_lt.1 hyx) (not_lt.1 hxy)
            subst hxy2
            simp only [hyx, if_false] at hab
            by_cases hxz : x < z
            · simp [hxz]
            · simp only [hxz, if_false] at hbc ⊢
              by_cases hzx : z < x
              · simp [hzx] at hbc
              · simp only [hzx, if_false] at hbc ⊢
                exact ih b c hab hbc

theorem strLess_total (a b : Str) (hne : a ≠ b) (h : strLess a b = false) :
    strLess b a = true := by
  induction a generalizing b with
  | nil =>
    cases b with
    | nil => exact absurd rfl hne
    | cons y b => simp [strLess] at h
  | cons x a ih =>
    cases b with
    | nil => simp [strLess]
    | cons y b =>
      simp only [strLess] at h ⊢
      by_cases hxy : x < y
      · simp [hxy] at h
      · simp only [hxy, if_false] at h
        by_cases hyx : y < x
        · simp [hyx]
        · simp only [hyx, if_false] at h ⊢
          have hxy2 : x = y := le_antisymm (not_lt.1 hyx) (not_lt.1 hxy)
          subst hxy2
          simpa using ih b (fun hab => hne (by rw [hab])) h

theorem mem_keys_increment (m : WordMap) (w k : Str) :
    k ∈ (m.increment w).keys ↔ k = w ∨ k ∈ m.keys := by
  induction m with
  | nil => simp [WordMap.increment, WordMap.keys]
  | cons e rest ih =>
    obtain ⟨k0, v⟩ := e
    simp only [WordMap.keys] at ih
    by_cases h1 : w = k0
    · subst h1
      simp [WordMap.increment, WordMap.keys]
    · by_cases h2 : strLess w k0 = true
      · simp [WordMap.increment, WordMap.keys, h1, h2]
      · have h3 : strLess w k0 = false := by simpa using h2
        simp only [WordMap.increment, WordMap.keys, h1, h3, if_false, Bool.false_eq_true,
          List.map_cons, List.mem_cons, ih]
        tauto

theorem sorted_increment (m : WordMap) (w : Str) (h : m.Sorted) : (m.increment w).Sorted := by
  induction m with
  | nil => simp [WordMap.increment, WordMap.Sorted, WordMap.keys]
  | cons e rest ih =>
    obtain ⟨k0, v⟩ := e
    have hs : (∀ k ∈ WordMap.keys rest, strLess k0 k = true) ∧ WordMap.Sorted rest := by
      simpa [WordMap.Sorted, WordMap.keys] using h
    by_cases h1 : w = k0
    · subst h1
      simpa [WordMap.increment, WordMap.Sorted, WordMap.keys] using h
    · by_cases h2 : strLess w k0 = true
      · have h3 : ∀ k ∈ WordMap.keys rest, strLess w k = true :=
          fun k hk => strLess_trans w k0 k h2 (hs.1 k hk)
        have h4 : (WordMap.Sorted ((w, (0 : Int) + 1) :: (k0, v) :: rest)) := by
          simp only [WordMap.Sorted, WordMap.keys, List.map_cons, List.pairwise_cons,
            List.mem_cons]
          refine ⟨?_, ?_, ?_⟩
          · rintro k (hk | hk)
            · rw [hk]; exact h2
            · exact h3 k hk
          · exact hs.1
          · exact hs.2
        simpa [WordMap.increment, h1, h2] using h4
      · have h5 : strLess k0 w = true :=
          strLess_total w k0 h1 (by simpa using h2)
        have h6 : WordMap.Sorted ((k0, v) :: WordMap.increment rest w) := by
          simp only [WordMap.Sorted, WordMap.keys, List.map_cons, List.pairwise_cons]
          refine ⟨?_, ih hs.2⟩
          intro k hk
          rcases (mem_keys_increment rest w k).1 hk with hk | hk
          · rw [hk]; exact h5
          · exact hs.1 k hk
        simpa [WordMap.increment, h1, h2] using h6

theorem find_eq_none (m : WordMap) (k : Str) (h : k ∉ m.keys) : m.find k = none := by
  induction m with
  | nil => rfl
  | cons e rest ih =>
    obtain ⟨k0, v⟩ := e
    have h1 : k ≠ k0 ∧ k ∉ WordMap.keys rest := by
      simpa [WordMap.keys] using h
    simp [WordMap.find, h1.1, ih h1.2]

theorem wrapInt_of_range (x : Int) (h1 : -2147483648 ≤ x) (h2 : x < 2147483648) :
    wrapInt x = x := by
  unfold wrapInt; omega

theorem wrapInt_succ_wrapInt (x : Int) : wrapInt (wrapInt x + 1) = wrapInt (x + 1) := by
  unfold wrapInt; omega

/-- The value of an `int` after `n` increments, `n` positive. -/
theorem iterate_wrapInt (n : Nat) (v : Int) (hn : 0 < n) :
    (fun x => wrapInt (x + 1))^[n] v = wrapInt (v + n) := by
  induction n with
  | zero => omega
  | succ n ih =>
    rw [Function.iterate_succ_apply']
    by_cases h0 : n = 0
    · subst h0; simp
    · rw [ih (Nat.pos_of_ne_zero h0), wrapInt_succ_wrapInt]
      congr 1
      push_cast
      omega

/-- The value of an `int` after `n` increments that do not overflow. -/
theorem iterate_wrapInt_of_range (n : Nat) (v : Int) (h1 : -2147483648 ≤ v)
    (h2 : v + n < 2147483648) : (fun x => wrapInt (x + 1))^[n] v = v + n := by
  by_cases h0 : n = 0
  · subst h0; simp
  · rw [iterate_wrapInt n v (Nat.pos_of_ne_zero h0)]
    exact wrapInt_of_range _ (by omega) h2

theorem iterate_wrapInt_zero (n : Nat) : (fun x => wrapInt (x + 1))^[n] 0 = wrapInt n := by
  by_cases h0 : n = 0
  · subst h0; rfl
  · rw [iterate_wrapInt n 0 (Nat.pos_of_ne_zero h0)]
    simp

/-- The effect of `wordCloud[word]++` on the counts: the count of `word` is
incremented as an `int` and no other count changes. -/
theorem count_increment (m : WordMap) (w k : Str) (h : m.Sorted) :
    (m.increment w).count k = if k = w then wrapInt (m.count k + 1) else m.count k := by
  induction m with
  | nil =>
    by_cases hk : k = w <;> simp [WordMap.increment, WordMap.count, WordMap.find, hk]
  | cons e rest ih =>
    obtain ⟨k0, v⟩ := e
    have hs : (∀ k ∈ WordMap.keys rest, strLess k0 k = true) ∧ WordMap.Sorted rest := by
      simpa [WordMap.Sorted, WordMap.keys] using h
    by_cases h1 : w = k0
    · subst h1
      by_cases hk : k = w <;> simp [WordMap.increment, WordMap.count, WordMap.find, hk]
    · by_cases h2 : strLess w k0 = true
      · by_cases hk : k = w
        · subst hk
          have hnot : k ∉ WordMap.keys rest := by
            intro hmem
            have h3 := strLess_trans k k0 k h2 (hs.1 k hmem)
            rw [strLess_irrefl] at h3
            exact Bool.false_ne_true h3
          simp [WordMap.increment, WordMap.count, WordMap.find, h1, h2,
            find_eq_none rest k hnot]
        · simp [WordMap.increment, WordMap.count, WordMap.find, h1, h2, hk]
      · have ih2 := ih hs.2
        simp only [WordMap.count] at ih2
        by_cases hk : k = k0
        · subst hk
          have hkw : ¬ k = w := fun h => h1 h.symm
          simp [WordMap.increment, WordMap.count, WordMap.find, h1, h2, hkw]
        · simp [WordMap.increment, WordMap.count, WordMap.find, h1, h2, hk, ih2]

/-! ## The word counter -/

theorem sorted_processWord (m : WordMap) (t sw : Str) (h : m.Sorted) :
    (processWord m t sw).Sorted := by
  simp only [processWord]
  split
  · exact sorted_increment m _ h
  · exact h

theorem sorted_foldl (ts : List Str) (m : WordMap) (sw : Str) (h : m.Sorted) :
    (ts.foldl (fun m t => processWord m t sw) m).Sorted := by
  induction ts generalizing m with
  | nil => exact h
  | cons t ts ih => exact ih _ (sorted_processWord m t sw h)

/-- The representation invariant of the map is kept by `buildWordMap`. -/
theorem sorted_buildWordMap (text : Str) (m : WordMap) (sw : Str) (h : m.Sorted) :
    (buildWordMap text m sw).Sorted := by
  rw [buildWordMap_eq_foldl]
  exact sorted_foldl _ m sw h

theorem count_processWord (m : WordMap) (t sw k : Str) (h : m.Sorted) :
    (processWord m t sw).count k =
      if normalize t = k ∧ goodWord k sw = true then wrapInt (m.count k + 1)
      else m.count k := by
  simp only [processWord]
  by_cases hg : goodWord (normalize t) sw = true
  · rw [if_pos hg, count_increment m _ k h]
    by_cases hk : k = normalize t
    · subst hk; simp [hg]
    · have hk2 : ¬ normalize t = k := fun h => hk h.symm
      simp [hk, hk2]
  · rw [if_neg hg]
    by_cases hk : normalize t = k
    · subst hk; simp [hg]
    · simp [hk]

/-- The count of a word after the loop: its count before, incremented as an
`int` once for every token that normalizes to the word and is accepted. -/
theorem count_foldl (ts : List Str) (m : WordMap) (sw k : Str) (h : m.Sorted) :
    (ts.foldl (fun m t => processWord m t sw) m).count k =
      (fun x => wrapInt (x + 1))^[ts.countP
        (fun t => decide (normalize t = k) && goodWord k sw)] (m.count k) := by
  induction ts generalizing m with
  | nil => simp
  | cons t ts ih =>
    rw [List.foldl_cons, ih _ (sorted_processWord m t sw h), count_processWord m t sw k h,
      List.countP_cons]
    by_cases hc : normalize t = k ∧ goodWord k sw = true
    · rw [if_pos hc]
      have : (decide (normalize t = k) && goodWord k sw) = true := by simp [hc.1, hc.2]
      simp only [this, if_true, Function.iterate_succ_apply]
    · rw [if_neg hc]
      have : (decide (normalize t = k) && goodWord k sw) = false := by
        by_cases h1 : normalize t = k
        · have h2 : goodWord k sw = false := by
            cases hgk : goodWord k sw with
            | false => rfl
            | true => exact absurd ⟨h1, hgk⟩ hc
          simp [h2]
        · simp [h1]
      simp [this]

theorem mem_keys_processWord (m : WordMap) (t sw k : Str) :
    k ∈ (processWord m t sw).keys ↔
      k ∈ m.keys ∨ (normalize t = k ∧ goodWord k sw = true) := by
  simp only [processWord]
  by_cases hg : goodWord (normalize t) sw = true
  · rw [if_pos hg, mem_keys_increment]
    constructor
    · rintro (h | h)
      · exact Or.inr ⟨h.symm, by rw [h]; exact hg⟩
      · exact Or.inl h
    · rintro (h | h)
      · exact Or.inr h
      · exact Or.inl h.1.symm
  · rw [if_neg hg]
    constructor
    · exact Or.inl
    · rintro (h | h)
      · exact h
      · exact absurd (by rw [h.1]; exact h.2) hg

theorem mem_keys_foldl (ts : List Str) (m : WordMap) (sw k : Str) :
    k ∈ (ts.foldl (fun m t => processWord m t sw) m).keys ↔
      k ∈ m.keys ∨ ∃ t ∈ ts, normalize t = k ∧ goodWord k sw = true := by
  induction ts generalizing m with
  | nil => simp
  | cons t ts ih =>
    rw [List.foldl_cons, ih, mem_keys_processWord]
    simp only [List.mem_cons, exists_eq_or_imp]
    tauto

/-- Every key of the map after `buildWordMap` was a key before or was accepted by
`goodWord` under the prefix of the call. -/
theorem mem_keys_buildWordMap (text : Str) (m : WordMap) (sw k : Str)
    (h : k ∈ (buildWordMap text m sw).keys) : k ∈ m.keys ∨ goodWord k sw = true := by
  rw [buildWordMap_eq_foldl, mem_keys_foldl] at h
  rcases h with h | ⟨t, _, _, hg⟩
  · exact Or.inl h
  · exact Or.inr hg

set_option maxRecDepth 100000 in
theorem ispunct_eq_contains (c : Byte) : punctuationSpec.contains c = ispunct c := by
  revert c; decide

/-- The normalization of the code is the normalization as the spec words it. -/
theorem normalize_eq_normalizeSpec (token : Str) : normalize token = normalizeSpec token := by
  simp only [normalize, normalizeSpec, ispunct_eq_contains]
  rfl

/-- The count of a word in the map built from the empty map is the number of
its accepted occurrences, taken as an `int`. -/
theorem count_buildWordMap_nil (text pfx w : Str) :
    (buildWordMap text [] pfx).count w =
      wrapInt ((wsTokens text).countP
        (fun t => decide (normalizeSpec t = w) && goodWord w pfx) : Nat) := by
  rw [buildWordMap_eq_foldl, count_foldl _ _ _ _ (by simp [WordMap.Sorted, WordMap.keys])]
  simp only [normalize_eq_normalizeSpec]
  exact iterate_wrapInt_zero _

/-- C2 (amended): started on the empty map, `buildWordMap` yields a map in which
the count of a string `w` is the number of whitespace-separated tokens of the
text whose normalized form (lowercased, punctuation removed) is `w` and is
accepted by `goodWord w pfx`, as long as that number is below `2^31`; and, for
every text, `w` is a key exactly when that number is at least one. -/
theorem buildWordMap_count (text pfx w : Str) :
    ((wsTokens text).countP (fun t => decide (normalizeSpec t = w) && goodWord w pfx)
        < 2147483648 →
      (buildWordMap text [] pfx).count w =
        ((wsTokens text).countP
          (fun t => decide (normalizeSpec t = w) && goodWord w pfx) : Nat)) ∧
    (w ∈ (buildWordMap text [] pfx).keys ↔
        1 ≤ (wsTokens text).countP
          (fun t => decide (normalizeSpec t = w) && goodWord w pfx)) := by
  constructor
  · intro hlt
    rw [count_buildWordMap_nil]
    exact wrapInt_of_range _ (by omega) (by omega)
  · rw [buildWordMap_eq_foldl, mem_keys_foldl]
    have hpos : (1 ≤ (wsTokens text).countP
        (fun t => decide (normalizeSpec t = w) && goodWord w pfx)) ↔
        0 < (wsTokens text).countP
          (fun t => decide (normalizeSpec t = w) && goodWord w pfx) :=
      Iff.rfl
    rw [hpos, List.countP_pos_iff]
    simp [WordMap.keys, normalize_eq_normalizeSpec]

set_option maxRecDepth 100000 in
/-- C2, witness: the word `dog` in the text `The dog and the Dog ran.` -/
theorem buildWordMap_count_witness :
    (wsTokens (ascii "The dog and the Dog ran.")).countP
        (fun t => decide (normalizeSpec t = ascii "dog") && goodWord (ascii "dog") [])
      < 2147483648 ∧
    (buildWordMap (ascii "The dog and the Dog ran.") [] []).count (ascii "dog") =
      ((wsTokens (ascii "The dog and the Dog ran.")).countP
        (fun t => decide (normalizeSpec t = ascii "dog") && goodWord (ascii "dog") []) : Nat) ∧
    (buildWordMap (ascii "The dog and the Dog ran.") [] []).count (ascii "dog") = 2 :=
  ⟨by decide,
   (buildWordMap_count (ascii "The dog and the Dog ran.") [] (ascii "dog")).1 (by decide),
   by decide⟩

/-! ## The report and `main` -/

theorem reportLoop_eq (mincounts maxcounts : Int) (m : WordMap) :
    reportLoop mincounts maxcounts m =
      (m.filter (fun e => !decide ((mincounts > 0 ∧ e.2 < mincounts) ∨
        (maxcounts > 0 ∧ e.2 > maxcounts)))).map (fun e => Printf.wordCount e.1 e.2) := by
  induction m with
  | nil => rfl
  | cons e rest ih =>
    by_cases h1 : mincounts > 0 ∧ e.2 < mincounts
    · simp [reportLoop, h1, ih]
    · by_cases h2 : maxcounts > 0 ∧ e.2 > maxcounts
      · simp [reportLoop, h1, h2, ih]
      · simp only [reportLoop, h1, h2, if_false, ih]
        rw [List.filter_cons_of_pos (by simp [h1, h2])]
        rfl

theorem reportEntries_map_wordCount (l : List (Str × Int)) :
    reportEntries (l.map (fun e => Printf.wordCount e.1 e.2)) = l := by
  induction l with
  | nil => rfl
  | cons e l ih => simp [reportEntries, ih]

theorem reportEntries_report (m : WordMap) (mincounts maxcounts : Int) :
    reportEntries (report m mincounts maxcounts) =
      m.filter (fun e => !decide ((mincounts > 0 ∧ e.2 < mincounts) ∨
        (maxcounts > 0 ∧ e.2 > maxcounts))) := by
  rw [report, reportLoop_eq]
  simp only [reportEntries]
  exact reportEntries_map_wordCount _

theorem parseOptions_error (opts : List Opt) (cfg : Config) (r : List Printf × Termination)
    (h : parseOptions opts cfg = .error r) :
    r = ([Printf.usage], Termination.abort) ∨ r = ([Printf.optionsError], Termination.abort) := by
  induction opts generalizing cfg with
  | nil => simp [parseOptions] at h
  | cons o opts ih =>
    cases o with
    | m v => exact ih _ (by simpa [parseOptions] using h)
    | n v => exact ih _ (by simpa [parseOptions] using h)
    | s a => exact ih _ (by simpa [parseOptions] using h)
    | i a => exact ih _ (by simpa [parseOptions] using h)
    | h =>
      simp only [parseOptions, Except.error.injEq] at h
      exact Or.inl h.symm
    | other =>
      simp only [parseOptions, Except.error.injEq] at h
      exact Or.inr h.symm

/-- The report entries of any run of `main` are entries of the map built from
some text under the configured prefix, in map order. -/
theorem reportEntries_main (opts : List Opt) (lastArg : Str) (fs : FileSystem) :
    reportEntries (main opts lastArg fs).1 = [] ∨
    ∃ cfg text, parseOptions opts {} = .ok cfg ∧
      reportEntries (main opts lastArg fs).1 =
        (buildWordMap text [] cfg.startswith).filter
          (fun e => !decide ((cfg.mincounts > 0 ∧ e.2 < cfg.mincounts) ∨
            (cfg.maxcounts > 0 ∧ e.2 > cfg.maxcounts))) := by
  unfold main
  cases hp : parseOptions opts {} with
  | error r =>
    left
    rcases parseOptions_error opts _ r hp with h | h <;> subst h <;> rfl
  | ok cfg =>
    simp only [mainAfterOptions]
    by_cases hlt : cfg.maxcounts < cfg.mincounts
    · left
      rw [if_pos hlt]
      rfl
    · right
      rw [if_neg hlt]
      exact ⟨cfg, _, rfl, reportEntries_report _ _ _⟩

/-- C4: the report step prints a blank line and then one line `word count` for
each entry of the map that is not skipped, in map order, an entry being
skipped exactly when `mincounts > 0` and its count is below `mincounts`, or
`maxcounts > 0` and its count is above `maxcounts`. Hence every printed count
is at least a positive `mincounts` and at most a positive `maxcounts`. -/
theorem report_spec (wordCloud : WordMap) (mincounts maxcounts : Int) :
    report wordCloud mincounts maxcounts =
      Printf.newline ::
        (wordCloud.filter (fun e => !decide ((mincounts > 0 ∧ e.2 < mincounts) ∨
          (maxcounts > 0 ∧ e.2 > maxcounts)))).map (fun e => Printf.wordCount e.1 e.2) ∧
    (0 < mincounts →
      ∀ e ∈ reportEntries (report wordCloud mincounts maxcounts), mincounts ≤ e.2) ∧
    (0 < maxcounts →
      ∀ e ∈ reportEntries (report wordCloud mincounts maxcounts), e.2 ≤ maxcounts) := by
  refine ⟨by rw [report, reportLoop_eq], ?_, ?_⟩
  · intro hpos e he
    rw [reportEntries_report, List.mem_filter] at he
    have h := he.2
    simp only [Bool.not_eq_true', decide_eq_false_iff_not, not_or, not_and] at h
    have := h.1 hpos
    omega
  · intro hpos e he
    rw [reportEntries_report, List.mem_filter] at he
    have h := he.2
    simp only [Bool.not_eq_true', decide_eq_false_iff_not, not_or, not_and] at h
    have := h.2 hpos
    omega

/-- C4, witness: a map with the counts 1, 3 and 5 under the thresholds 2 and 4. -/
theorem report_spec_witness :
    report [(ascii "p", 1), (ascii "q", 3), (ascii "r", 5)] 2 4 =
      [Printf.newline, Printf.wordCount (ascii "q") 3] ∧
    (∀ e ∈ reportEntries (report [(ascii "p", 1), (ascii "q", 3), (ascii "r", 5)] 2 4),
      (2 : Int) ≤ e.2) ∧
    (∀ e ∈ reportEntries (report [(ascii "p", 1), (ascii "q", 3), (ascii "r", 5)] 2 4),
      e.2 ≤ (4 : Int)) :=
  ⟨by decide,
   (report_spec [(ascii "p", 1), (ascii "q", 3), (ascii "r", 5)] 2 4).2.1 (by decide),
   (report_spec [(ascii "p", 1), (ascii "q", 3), (ascii "r", 5)] 2 4).2.2 (by decide)⟩

/-- C5, the code at the failing input: with `mincounts = 2` and `maxcounts` left
at zero, `main` prints the counts error and calls `exit(1)`, whatever the input
and the file system; nothing is analysed and no report is printed. -/
theorem main_mincounts_only_exits (lastArg : Str) (fs : FileSystem) :
    main [Opt.m 2] lastArg fs = ([Printf.countsError 0 2], Termination.exit 1) := by
  rfl

/-- C6: when `mincounts` and `maxcounts` are both non-zero and
`maxcounts < mincounts`, `main` prints the counts error and ends with exit
status 1; the outcome does not depend on the input or the file system (neither
is consulted), and no report line is printed. -/
theorem main_counts_error (opts : List Opt) (cfg : Config) (lastArg : Str) (fs : FileSystem)
    (hparse : parseOptions opts {} = .ok cfg) (_hmin : cfg.mincounts ≠ 0)
    (_hmax : cfg.maxcounts ≠ 0) (hlt : cfg.maxcounts < cfg.mincounts) :
    main opts lastArg fs =
      ([Printf.countsError cfg.maxcounts cfg.mincounts], Termination.exit 1) ∧
    (∀ (lastArg2 : Str) (fs2 : FileSystem), main opts lastArg2 fs2 = main opts lastArg fs) ∧
    reportEntries (main opts lastArg fs).1 = [] := by
  have hm : ∀ (l : Str) (f : FileSystem), main opts l f =
      ([Printf.countsError cfg.maxcounts cfg.mincounts], Termination.exit 1) := by
    intro l f
    simp only [main, hparse, mainAfterOptions, if_pos hlt]
  refine ⟨hm _ _, fun l f => by rw [hm, hm], ?_⟩
  rw [hm]
  rfl

/-- C6, witness: `--mincounts=5 --maxcounts=2`. -/
theorem main_counts_error_witness :
    main [Opt.m 5, Opt.n 2] (ascii "some text") (fun _ => none) =
      ([Printf.countsError 2 5], Termination.exit 1) ∧
    (∀ (lastArg2 : Str) (fs2 : FileSystem),
      main [Opt.m 5, Opt.n 2] lastArg2 fs2 =
        main [Opt.m 5, Opt.n 2] (ascii "some text") (fun _ => none)) ∧
    reportEntries (main [Opt.m 5, Opt.n 2] (ascii "some text") (fun _ => none)).1 = [] :=
  main_counts_error [Opt.m 5, Opt.n 2] { mincounts := 5, maxcounts := 2 } (ascii "some text")
    (fun _ => none) rfl (by decide) (by decide) (by decide)

/-- C7, the code at the failing input: on the usage example of the source, with
`mincounts = 2`, `startswith = "la"` and `maxcounts` left at zero, `main` prints
the counts error and calls `exit(1)` instead of the report; the report step
itself, on the map built from this text, gives the lines `labeled 2` and
`larry 4`. -/
theorem main_usage_example_exits (fs : FileSystem) :
    main [Opt.m 2, Opt.s (ascii "la")]
        (ascii "my dog is lazy, labeled like larry, larry likes larry and labeled larry") fs =
      ([Printf.countsError 0 2], Termination.exit 1) ∧
    report (buildWordMap
        (ascii "my dog is lazy, labeled like larry, larry likes larry and labeled larry")
        [] (ascii "la")) 2 0 =
      [Printf.newline, Printf.wordCount (ascii "labeled") 2,
        Printf.wordCount (ascii "larry") 4] :=
  ⟨rfl, by decide⟩

/-- C8 (amended): with no options, on the literal text
`The dog and the Dog ran, the dog-house fell!` (which names no file), `main`
prints a blank line and exactly the report lines `dog 2`, `doghouse 1`,
`fell 1` and `ran 1`, and ends with status 0; `the` and `and` are left out as
stop words. -/
theorem main_dog_text (fs : FileSystem)
    (hfile : fs (ascii "The dog and the Dog ran, the dog-house fell!") = none) :
    main [] (ascii "The dog and the Dog ran, the dog-house fell!") fs =
      ([Printf.newline, Printf.wordCount (ascii "dog") 2, Printf.wordCount (ascii "doghouse") 1,
        Printf.wordCount (ascii "fell") 1, Printf.wordCount (ascii "ran") 1],
       Termination.exit 0) := by
  have hb : buildWordMap (ascii "The dog and the Dog ran, the dog-house fell!") [] [] =
      [(ascii "dog", 2), (ascii "doghouse", 1), (ascii "fell", 1), (ascii "ran", 1)] := by
    decide
  have hm : main [] (ascii "The dog and the Dog ran, the dog-house fell!") fs =
      (report (buildWordMap (ascii "The dog and the Dog ran, the dog-house fell!") [] []) 0 0,
        Termination.exit 0) := by
    simp only [main, parseOptions, mainAfterOptions, fileExist, if_true, hfile,
      Option.isSome_none, Bool.false_eq_true, if_false, lt_self_iff_false]
  rw [hm, hb]
  rfl

/-- C8, witness: the file system without any file. -/
theorem main_dog_text_witness :
    main [] (ascii "The dog and the Dog ran, the dog-house fell!") (fun _ => none) =
      ([Printf.newline, Printf.wordCount (ascii "dog") 2, Printf.wordCount (ascii "doghouse") 1,
        Printf.wordCount (ascii "fell") 1, Printf.wordCount (ascii "ran") 1],
       Termination.exit 0) :=
  main_dog_text (fun _ => none) rfl

/-- C8, counterexample: on that text the report entries are not `dog 3`,
`doghouse 1`, `ran 1`: the word `dog` occurs twice, and `fell` is reported. -/
theorem main_dog_text_not_as_claimed :
    reportEntries (main [] (ascii "The dog and the Dog ran, the dog-house fell!") (fun _ => none)).1 ≠
      [(ascii "dog", 3), (ascii "doghouse", 1), (ascii "ran", 1)] := by
  decide

/-- C9: in every run of `main` the words on the report lines are in strictly
increasing byte-wise lexicographic order; in particular no word is printed
twice. -/
theorem main_reportWords_sorted (opts : List Opt) (lastArg : Str) (fs : FileSystem) :
    (reportWords (main opts lastArg fs).1).Pairwise (fun a b => strLess a b = true) ∧
    (reportWords (main opts lastArg fs).1).Nodup := by
  have hp : (reportWords (main opts lastArg fs).1).Pairwise (fun a b => strLess a b = true) := by
    unfold reportWords
    rcases reportEntries_main opts lastArg fs with h | ⟨cfg, text, _, h⟩
    · rw [h]; exact List.Pairwise.nil
    · rw [h]
      have hs := sorted_buildWordMap text [] cfg.startswith
        (by simp [WordMap.Sorted, WordMap.keys])
      exact List.Pairwise.sublist (List.Sublist.map _ (List.filter_sublist _)) hs
  refine ⟨hp, ?_⟩
  unfold List.Nodup
  refine List.Pairwise.imp ?_ hp
  intro a b hab heq
  rw [heq, strLess_irrefl] at hab
  exact Bool.false_ne_true hab

/-- C10 (amended): for every text and every prefix without a NUL byte, every key
of the map built by `buildWordMap` under that prefix, and so every word on a
report line of a run of `main` configured with that prefix, begins with the
bytes of the prefix. -/
theorem buildWordMap_keys_startswith (text pfx : Str) (hnul : (0 : Byte) ∉ pfx) :
    (∀ k ∈ (buildWordMap text [] pfx).keys, k.take pfx.length = pfx) ∧
    (∀ (opts : List Opt) (cfg : Config) (lastArg : Str) (fs : FileSystem),
      parseOptions opts {} = .ok cfg → cfg.startswith = pfx →
      ∀ w ∈ reportWords (main opts lastArg fs).1, w.take pfx.length = pfx) := by
  have key : ∀ (t k : Str), k ∈ (buildWordMap t [] pfx).keys → k.take pfx.length = pfx := by
    intro t k hk
    rcases mem_keys_buildWordMap t [] pfx k hk with h | h
    · simp [WordMap.keys] at h
    · rcases ((goodWord_eq_true_iff k pfx hnul).1 h).2.2.1 with h3 | h3
      · simp [h3]
      · exact h3
  refine ⟨key text, ?_⟩
  intro opts cfg lastArg fs hparse hpfx w hw
  unfold reportWords at hw
  rcases reportEntries_main opts lastArg fs with h | ⟨cfg2, t, hparse2, h⟩
  · rw [h] at hw; simp at hw
  · rw [hparse] at hparse2
    have hc : cfg2 = cfg := by
      injection hparse2 with h2
      exact h2.symm
    subst hc
    rw [h, hpfx] at hw
    apply key t
    exact (List.Sublist.map Prod.fst (List.filter_sublist _)).subset hw

/-- C10, witness: the prefix `la` on the usage example of the source. -/
theorem buildWordMap_keys_startswith_witness :
    (0 : Byte) ∉ ascii "la" ∧
    (∀ k ∈ (buildWordMap
        (ascii "my dog is lazy, labeled like larry, larry likes larry and labeled larry")
        [] (ascii "la")).keys,
      k.take (ascii "la").length = ascii "la") ∧
    (∀ (opts : List Opt) (cfg : Config) (lastArg : Str) (fs : FileSystem),
      parseOptions opts {} = .ok cfg → cfg.startswith = ascii "la" →
      ∀ w ∈ reportWords (main opts lastArg fs).1, w.take (ascii "la").length = ascii "la") :=
  ⟨by decide,
   buildWordMap_keys_startswith
     (ascii "my dog is lazy, labeled like larry, larry likes larry and labeled larry")
     (ascii "la") (by decide)⟩

/-- C10, counterexample: under the prefix `ab\0c` (four bytes, the third a NUL)
the text `ab` yields the key `ab`, which does not begin with the prefix. -/
theorem buildWordMap_keys_startswith_fails_nul :
    ([97, 98, 0, 99] : Str) ≠ [] ∧
    ¬ ∀ k ∈ (buildWordMap [97, 98] [] [97, 98, 0, 99]).keys,
      k.take ([97, 98, 0, 99] : Str).length = [97, 98, 0, 99] := by
  decide

/-! ## Normalization and the stop words -/

set_option maxRecDepth 100000 in
theorem ispunct_tolower (c : Byte) : ispunct (tolower c) = ispunct c := by
  revert c; decide

set_option maxRecDepth 100000 in
theorem tolower_not_upper (c : Byte) : ¬ (65 ≤ (tolower c).val ∧ (tolower c).val ≤ 90) := by
  revert c; decide

theorem normalize_eq_map_filter (token : Str) :
    normalize token = (token.filter (fun c => !ispunct c)).map tolower := by
  induction token with
  | nil => rfl
  | cons c cs ih =>
    simp only [normalize, List.map_cons] at ih ⊢
    by_cases h : ispunct c = true
    · simp [List.filter_cons, ispunct_tolower, h, ih]
    · simp [List.filter_cons, ispunct_tolower, h, ih]

/-- Every entry of `IGNORES` is rejected under every prefix. -/
theorem goodWord_of_mem_IGNORES (w pfx : Str) (h : w ∈ IGNORES) : goodWord w pfx = false := by
  have hany : IGNORES.any (fun ignore => w == ignore) = true := by
    rw [List.any_eq_true]
    exact ⟨w, h, by simp⟩
  simp [goodWord, hany]

set_option maxRecDepth 100000 in
/-- C11: the normalization of a token lowers the letters A-Z and leaves every
other byte as it is, then deletes the ASCII punctuation characters and nothing
else, in the original order: the result is the token without its punctuation
characters, letters lowered. The result has no uppercase ASCII letter and no
ASCII punctuation, and it is empty when the token is all punctuation. -/
theorem normalize_spec (token : Str) :
    normalize token = (token.map tolower).filter (fun c => !ispunct c) ∧
    normalize token = (token.filter (fun c => !(punctuationSpec.contains c))).map tolower ∧
    (∀ c : Byte, (65 ≤ c.val ∧ c.val ≤ 90 → (tolower c).val = c.val + 32) ∧
      (¬ (65 ≤ c.val ∧ c.val ≤ 90) → tolower c = c)) ∧
    (∀ c : Byte, ispunct c = true ↔ c ∈ punctuationSpec) ∧
    (∀ c ∈ normalize token,
      ¬ (65 ≤ c.val ∧ c.val ≤ 90) ∧ c ∉ punctuationSpec) ∧
    ((∀ c ∈ token, c ∈ punctuationSpec) → normalize token = []) := by
  have hp : ∀ c : Byte, ispunct c = true ↔ c ∈ punctuationSpec := by decide
  have hp2 : ∀ c : Byte, punctuationSpec.contains c = ispunct c := by decide
  refine ⟨rfl, ?_, by decide, hp, ?_, ?_⟩
  · rw [normalize_eq_map_filter]
    simp only [hp2]
  · intro c hc
    rw [normalize_eq_map_filter] at hc
    obtain ⟨d, hd, hdc⟩ := List.mem_map.1 hc
    have hd2 := (List.mem_filter.1 hd).2
    rw [← hdc]
    refine ⟨tolower_not_upper d, ?_⟩
    rw [← hp, ispunct_tolower]
    simpa using hd2
  · intro h
    rw [normalize_eq_map_filter]
    have : token.filter (fun c => !ispunct c) = [] := by
      rw [List.filter_eq_nil_iff]
      intro c hc
      simp [(hp c).2 (h c hc)]
    rw [this]
    rfl

set_option maxRecDepth 100000 in
/-- C11, witness: the token `!?,` is all punctuation. -/
theorem normalize_spec_witness :
    (∀ c ∈ ascii "!?,", c ∈ punctuationSpec) ∧ normalize (ascii "!?,") = [] :=
  ⟨by decide, (normalize_spec (ascii "!?,")).2.2.2.2.2 (by decide)⟩

set_option maxRecDepth 100000 in
/-- C12: the strings in `IGNORES` are exactly the 52 stop words that the spec
lists, and `goodWord` rejects each of them under every prefix. -/
theorem IGNORES_spec :
    (∀ w : Str, w ∈ IGNORES ↔ w ∈ stopWordsSpec) ∧
    stopWordsSpec.Nodup ∧ stopWordsSpec.length = 52 ∧
    (∀ w ∈ IGNORES, ∀ pfx : Str, goodWord w pfx = false) := by
  have h1 : ∀ w ∈ IGNORES, w ∈ stopWordsSpec := by decide
  have h2 : ∀ w ∈ stopWordsSpec, w ∈ IGNORES := by decide
  exact ⟨fun w => ⟨h1 w, h2 w⟩, by decide, by decide,
    fun w hw pfx => goodWord_of_mem_IGNORES w pfx hw⟩

set_option maxRecDepth 100000 in
/-- C12, witness: the stop word `the` under the prefix `th`. -/
theorem IGNORES_spec_witness :
    ascii "the" ∈ IGNORES ∧ goodWord (ascii "the") (ascii "th") = false :=
  ⟨by decide, IGNORES_spec.2.2.2 (ascii "the") (by decide) (ascii "th")⟩

/-! ## Input resolution and the help option -/

theorem resolveInput_some (fs : FileSystem) (input contents : Str)
    (h : fs input = some contents) : resolveInput fs input = contents := by
  simp [resolveInput, fileExist, loadFile, h]

theorem resolveInput_none (fs : FileSystem) (input : Str) (h : fs input = none) :
    resolveInput fs input = input := by
  simp [resolveInput, fileExist, h]

/-- The part of `main` after the option loop, in terms of the resolved input. -/
theorem mainAfterOptions_eq (cfg : Config) (lastArg : Str) (fs : FileSystem) :
    mainAfterOptions cfg lastArg fs =
      if cfg.maxcounts < cfg.mincounts then
        ([Printf.countsError cfg.maxcounts cfg.mincounts], Termination.exit 1)
      else
        (report (buildWordMap (resolveInput fs (if cfg.input = [] then lastArg else cfg.input))
          [] cfg.startswith) cfg.mincounts cfg.maxcounts, Termination.exit 0) := rfl

/-- C13: with the file system as a partial function from paths to contents, the
input-resolution step of `main` yields the contents of the file when the input
names a readable file and the input itself otherwise, and the result is the
text that `main` analyses. Hence a run on a path to a file that holds the text
`T` gives the same output as a run on `T` as literal text, when `T` names no
readable file: for the positional argument, and for the option `--input` when
neither string is empty. -/
theorem resolveInput_spec :
    (∀ (fs : FileSystem) (input contents : Str), fs input = some contents →
      resolveInput fs input = contents) ∧
    (∀ (fs : FileSystem) (input : Str), fs input = none → resolveInput fs input = input) ∧
    (∀ (cfg : Config) (lastArg : Str) (fs : FileSystem), ¬ cfg.maxcounts < cfg.mincounts →
      mainAfterOptions cfg lastArg fs =
        (report (buildWordMap (resolveInput fs (if cfg.input = [] then lastArg else cfg.input))
          [] cfg.startswith) cfg.mincounts cfg.maxcounts, Termination.exit 0)) ∧
    (∀ (opts : List Opt) (fs : FileSystem) (path T : Str), fs path = some T → fs T = none →
      main opts path fs = main opts T fs) ∧
    (∀ (cfg : Config) (lastArg : Str) (fs : FileSystem) (path T : Str),
      fs path = some T → fs T = none → path ≠ [] → T ≠ [] →
      mainAfterOptions { cfg with input := path } lastArg fs =
        mainAfterOptions { cfg with input := T } lastArg fs) := by
  refine ⟨resolveInput_some, resolveInput_none, ?_, ?_, ?_⟩
  · intro cfg lastArg fs h
    rw [mainAfterOptions_eq, if_neg h]
  · intro opts fs path T hp hT
    unfold main
    cases parseOptions opts {} with
    | error r => rfl
    | ok cfg =>
      simp only [mainAfterOptions_eq]
      by_cases hi : cfg.input = []
      · simp only [hi, if_true, resolveInput_some fs path T hp, resolveInput_none fs T hT]
      · simp only [hi, if_false]
  · intro cfg lastArg fs path T hp hT hpe hTe
    simp only [mainAfterOptions_eq, hpe, hTe, if_false, resolveInput_some fs path T hp,
      resolveInput_none fs T hT]

/-- C13, witness: a file system whose only file, `f.txt`, holds the text
`dog dog cat`. -/
theorem resolveInput_spec_witness :
    resolveInput (fun p => if p = ascii "f.txt" then some (ascii "dog dog cat") else none)
      (ascii "f.txt") = ascii "dog dog cat" ∧
    resolveInput (fun p => if p = ascii "f.txt" then some (ascii "dog dog cat") else none)
      (ascii "dog dog cat") = ascii "dog dog cat" ∧
    main [] (ascii "f.txt")
        (fun p => if p = ascii "f.txt" then some (ascii "dog dog cat") else none) =
      main [] (ascii "dog dog cat")
        (fun p => if p = ascii "f.txt" then some (ascii "dog dog cat") else none) ∧
    main [] (ascii "f.txt")
        (fun p => if p = ascii "f.txt" then some (ascii "dog dog cat") else none) =
      ([Printf.newline, Printf.wordCount (ascii "cat") 1, Printf.wordCount (ascii "dog") 2],
        Termination.exit 0) :=
  ⟨resolveInput_spec.1 _ (ascii "f.txt") (ascii "dog dog cat") (by decide),
   resolveInput_spec.2.1 _ (ascii "dog dog cat") (by decide),
   resolveInput_spec.2.2.2.1 [] _ (ascii "f.txt") (ascii "dog dog cat") (by decide) (by decide),
   by decide⟩

theorem parseOptions_append_h (pre post : List Opt) (cfg : Config)
    (hpre : ∀ o ∈ pre, o ≠ Opt.h ∧ o ≠ Opt.other) :
    parseOptions (pre ++ Opt.h :: post) cfg = .error ([Printf.usage], Termination.abort) := by
  induction pre generalizing cfg with
  | nil => rfl
  | cons o pre ih =>
    have hrest : ∀ o ∈ pre, o ≠ Opt.h ∧ o ≠ Opt.other :=
      fun o ho => hpre o (List.mem_cons_of_mem _ ho)
    have ho := hpre o (List.mem_cons_self _ _)
    cases o with
    | m v => exact ih _ hrest
    | n v => exact ih _ hrest
    | s a => exact ih _ hrest
    | i a => exact ih _ hrest
    | h => exact absurd rfl ho.1
    | other => exact absurd rfl ho.2

/-- C14 (amended): when `getopt_long` yields the help option, after any options
parsed without a failure before it, `main` prints the usage text and ends at
once by `abort()`, an abnormal termination and not exit status 0; the input and
the file system are not consulted, later options are not looked at, and no
report line is printed. -/
theorem main_help (pre post : List Opt) (lastArg : Str) (fs : FileSystem)
    (hpre : ∀ o ∈ pre, o ≠ Opt.h ∧ o ≠ Opt.other) :
    main (pre ++ Opt.h :: post) lastArg fs = ([Printf.usage], Termination.abort) ∧
    reportEntries (main (pre ++ Opt.h :: post) lastArg fs).1 = [] := by
  have hm : main (pre ++ Opt.h :: post) lastArg fs = ([Printf.usage], Termination.abort) := by
    simp only [main, parseOptions_append_h pre post _ hpre]
  rw [hm]
  exact ⟨rfl, rfl⟩

/-- C14, witness: `--mincounts=2 --help --maxcounts=1` on some input. -/
theorem main_help_witness :
    main ([Opt.m 2] ++ Opt.h :: [Opt.n 1]) (ascii "some text") (fun _ => none) =
      ([Printf.usage], Termination.abort) ∧
    reportEntries (main ([Opt.m 2] ++ Opt.h :: [Opt.n 1]) (ascii "some text")
      (fun _ => none)).1 = [] :=
  main_help [Opt.m 2] [Opt.n 1] (ascii "some text") (fun _ => none) (by decide)

/-- C14, counterexample: on the help option alone `main` does not end with exit
status 0. -/
theorem main_help_not_exit_zero :
    (main [Opt.h] (ascii "some text") (fun _ => none)).2 ≠ Termination.exit 0 := by
  decide

/-! ## The tokens are the maximal runs of non-whitespace bytes -/

/-- The loop of `buildWordMap` applies the loop body to the extracted words, in
order, whatever the bound. -/
theorem buildWordMapLoop_eq_foldl_extractedWords (fuel : Nat) (s : Str) (wc : WordMap)
    (sw : Str) :
    buildWordMapLoop fuel s wc sw =
      (extractedWords fuel s).foldl (fun m t => processWord m t sw) wc := by
  induction fuel generalizing s wc with
  | zero => rfl
  | succ n ih =>
    cases he : extract s with
    | none => simp [buildWordMapLoop, extractedWords, he]
    | some p =>
      obtain ⟨word, rest⟩ := p
      simp only [buildWordMapLoop, extractedWords, he, List.foldl_cons]
      exact ih rest _

theorem extractedWords_eq_wsTokens (fuel : Nat) (s : Str) (h : s.length < fuel) :
    extractedWords fuel s = wsTokens s := by
  induction fuel generalizing s with
  | zero => omega
  | succ n ih =>
    rcases extract_spec s with ⟨he, ht⟩ | ⟨word, rest, he, ht, hl⟩
    · simp [extractedWords, he, ht]
    · simp only [extractedWords, he, ht]
      rw [ih rest (by omega)]

theorem tokens_eq_wsTokens (text : Str) : tokens text = wsTokens text :=
  extractedWords_eq_wsTokens _ _ (Nat.lt_succ_self _)

theorem splitOnP_append_sep (a b : Str) (sep : Byte) (hsep : isspace sep = true) :
    (a ++ sep :: b).splitOnP isspace = a.splitOnP isspace ++ b.splitOnP isspace := by
  induction a with
  | nil => simp [List.splitOnP_cons, hsep, List.splitOnP_nil]
  | cons c a ih =>
    by_cases hc : isspace c = true
    · simp [List.splitOnP_cons, hc, ih]
    · simp only [List.cons_append, List.splitOnP_cons, hc, ih]
      cases hs : List.splitOnP isspace a with
      | nil => exact absurd hs (List.splitOnP_ne_nil _ _)
      | cons x xs => simp [List.modifyHead]

/-- A whitespace byte between two texts separates their tokens. -/
theorem wsTokens_append_sep (a b : Str) (sep : Byte) (hsep : isspace sep = true) :
    wsTokens (a ++ sep :: b) = wsTokens a ++ wsTokens b := by
  simp [wsTokens, splitOnP_append_sep a b sep hsep]

theorem wsTokens_all_space (sp : Str) (hsp : ∀ c ∈ sp, isspace c = true) : wsTokens sp = [] := by
  induction sp with
  | nil => exact wsTokens_nil
  | cons c cs ih =>
    rw [wsTokens_cons_space c cs (hsp c (List.mem_cons_self _ _))]
    exact ih (fun d hd => hsp d (List.mem_cons_of_mem _ hd))

theorem wsTokens_space_append (sp x : Str) (hsp : ∀ c ∈ sp, isspace c = true) :
    wsTokens (sp ++ x) = wsTokens x := by
  induction sp with
  | nil => rfl
  | cons c cs ih =>
    rw [List.cons_append, wsTokens_cons_space c _ (hsp c (List.mem_cons_self _ _))]
    exact ih (fun d hd => hsp d (List.mem_cons_of_mem _ hd))

theorem wsTokens_append_space (x sp : Str) (hsp : ∀ c ∈ sp, isspace c = true) :
    wsTokens (x ++ sp) = wsTokens x := by
  cases sp with
  | nil => simp
  | cons c cs =>
    rw [wsTokens_append_sep x cs c (hsp c (List.mem_cons_self _ _)),
      wsTokens_all_space cs (fun d hd => hsp d (List.mem_cons_of_mem _ hd))]
    simp

theorem readWord_run (t rest : Str) (ht : ∀ c ∈ t, isspace c = false)
    (hrest : rest = [] ∨ ∃ c cs, rest = c :: cs ∧ isspace c = true) :
    readWord (t ++ rest) = (t, rest) := by
  induction t with
  | nil =>
    rcases hrest with h | ⟨c, cs, h, hc⟩
    · subst h; rfl
    · subst h; simp [readWord, hc]
  | cons c t ih =>
    have hc := ht c (List.mem_cons_self _ _)
    have ih2 := ih (fun d hd => ht d (List.mem_cons_of_mem _ hd))
    simp [readWord, hc, ih2]

theorem wsTokens_run (t rest : Str) (hne : t ≠ []) (ht : ∀ c ∈ t, isspace c = false)
    (hrest : rest = [] ∨ ∃ c cs, rest = c :: cs ∧ isspace c = true) :
    wsTokens (t ++ rest) = t :: wsTokens rest := by
  cases t with
  | nil => exact absurd rfl hne
  | cons c t =>
    have hc := ht c (List.mem_cons_self _ _)
    have hr := readWord_run (c :: t) rest ht hrest
    rw [List.cons_append] at hr ⊢
    rw [wsTokens_cons_nonspace c _ hc, hr]

theorem readWord_decomp (s : Str) :
    (readWord s).1 ++ (readWord s).2 = s ∧ (∀ c ∈ (readWord s).1, isspace c = false) ∧
    ((readWord s).2 = [] ∨ ∃ c cs, (readWord s).2 = c :: cs ∧ isspace c = true) := by
  induction s with
  | nil => simp [readWord]
  | cons c cs ih =>
    by_cases hc : isspace c = true
    · simp [readWord, hc]
    · have hc2 : isspace c = false := by simpa using hc
      obtain ⟨h1, h2, h3⟩ := ih
      simp only [readWord, hc2]
      refine ⟨by simp [h1], ?_, by simpa using h3⟩
      intro d hd
      simp only [Bool.false_eq_true, if_false, List.mem_cons] at hd
      rcases hd with hd | hd
      · rw [hd]; exact hc2
      · exact h2 d hd

theorem skipws_decomp (s : Str) :
    ∃ sp, (∀ c ∈ sp, isspace c = true) ∧ s = sp ++ skipws s := by
  induction s with
  | nil => exact ⟨[], by simp, rfl⟩
  | cons c cs ih =>
    by_cases hc : isspace c = true
    · obtain ⟨sp, hsp, h⟩ := ih
      refine ⟨c :: sp, ?_, ?_⟩
      · intro d hd
        rcases List.mem_cons.1 hd with hd | hd
        · rw [hd]; exact hc
        · exact hsp d hd
      · simp only [skipws, hc, if_true, List.cons_append]
        rw [← h]
    · exact ⟨[], by simp, by simp [skipws, hc]⟩

/-- A text is whitespace only, or it is whitespace, a first maximal run of
non-whitespace bytes and a strictly shorter rest. -/
theorem text_decomp (s : Str) :
    (∀ c ∈ s, isspace c = true) ∨
    ∃ sp t rest, s = sp ++ t ++ rest ∧ (∀ c ∈ sp, isspace c = true) ∧ t ≠ [] ∧
      (∀ c ∈ t, isspace c = false) ∧
      (rest = [] ∨ ∃ c cs, rest = c :: cs ∧ isspace c = true) ∧ rest.length < s.length := by
  obtain ⟨sp, hsp, hs⟩ := skipws_decomp s
  cases hk : skipws s with
  | nil =>
    left
    rw [hk, List.append_nil] at hs
    rw [hs]; exact hsp
  | cons c cs =>
    right
    have hc := skipws_head s c cs hk
    obtain ⟨h1, h2, h3⟩ := readWord_decomp (c :: cs)
    refine ⟨sp, (readWord (c :: cs)).1, (readWord (c :: cs)).2, ?_, hsp, ?_, h2, h3, ?_⟩
    · rw [List.append_assoc, h1, ← hk]; exact hs
    · simp [readWord, hc]
    · have hl : s.length = sp.length + (c :: cs).length := by
        rw [← hk, ← List.length_append, ← hs]
      have hl2 : (c :: cs).length =
          (readWord (c :: cs)).1.length + (readWord (c :: cs)).2.length := by
        rw [← List.length_append, h1]
      have hl3 : 0 < (readWord (c :: cs)).1.length := by
        simp [readWord, hc]
      omega

theorem maximalRuns_wsTokens_aux (n : Nat) (s : Str) (h : s.length < n) :
    MaximalRuns s (wsTokens s) := by
  induction n generalizing s with
  | zero => omega
  | succ n ih =>
    rcases text_decomp s with hsp | ⟨sp, t, rest, hs, hsp, hne, ht, hrest, hl⟩
    · rw [wsTokens_all_space s hsp]
      exact MaximalRuns.done s hsp
    · have hr := ih rest (by omega)
      have htok : wsTokens s = t :: wsTokens rest := by
        rw [hs, List.append_assoc, wsTokens_space_append sp _ hsp, wsTokens_run t rest hne ht hrest]
      rw [htok, hs]
      exact MaximalRuns.run sp t rest _ hsp hne ht hrest hr

theorem maximalRuns_unique (s : Str) (ts : List Str) (h : MaximalRuns s ts) :
    ts = wsTokens s := by
  induction h with
  | done sp hsp => rw [wsTokens_all_space sp hsp]
  | run sp t rest ts hsp hne ht hrest _ ih =>
    rw [List.append_assoc, wsTokens_space_append sp _ hsp, wsTokens_run t rest hne ht hrest, ih]

theorem maximalRuns_nonempty (s : Str) (ts : List Str) (h : MaximalRuns s ts) :
    ∀ t ∈ ts, t ≠ [] ∧ ∀ c ∈ t, isspace c = false := by
  induction h with
  | done sp hsp => intro t ht; simp at ht
  | run sp t rest ts hsp hne ht hrest _ ih =>
    intro u hu
    rcases List.mem_cons.1 hu with hu | hu
    · rw [hu]; exact ⟨hne, ht⟩
    · exact ih u hu

/-- C15: the tokens that `buildWordMap` processes are exactly the maximal runs
of non-whitespace bytes of the text, in order: the map is the result of the
loop body applied to them in turn; they form the decomposition of the text
into maximal runs, and no other list does; no token is empty or holds a
whitespace byte; whitespace before or after the text, or repeated between two
texts, adds no token; and on an empty or whitespace-only text there is no token
and the map stays as it is. -/
theorem buildWordMap_tokens (text : Str) :
    (∀ (wc : WordMap) (sw : Str),
      buildWordMap text wc sw = (tokens text).foldl (fun m t => processWord m t sw) wc) ∧
    MaximalRuns text (tokens text) ∧
    (∀ ts, MaximalRuns text ts → ts = tokens text) ∧
    (∀ t ∈ tokens text, t ≠ [] ∧ ∀ c ∈ t, isspace c = false) ∧
    (∀ sp : Str, (∀ c ∈ sp, isspace c = true) →
      tokens (sp ++ text) = tokens text ∧ tokens (text ++ sp) = tokens text) ∧
    (∀ (sp text2 : Str), sp ≠ [] → (∀ c ∈ sp, isspace c = true) →
      tokens (text ++ sp ++ text2) = tokens text ++ tokens text2) ∧
    ((∀ c ∈ text, isspace c = true) →
      tokens text = [] ∧ ∀ (wc : WordMap) (sw : Str), buildWordMap text wc sw = wc) := by
  have hruns : MaximalRuns text (tokens text) := by
    rw [tokens_eq_wsTokens]
    exact maximalRuns_wsTokens_aux _ text (Nat.lt_succ_self _)
  refine ⟨fun wc sw => buildWordMapLoop_eq_foldl_extractedWords _ _ _ _, hruns, ?_,
    maximalRuns_nonempty _ _ hruns, ?_, ?_, ?_⟩
  · intro ts hts
    rw [tokens_eq_wsTokens]
    exact maximalRuns_unique text ts hts
  · intro sp hsp
    simp only [tokens_eq_wsTokens]
    exact ⟨wsTokens_space_append sp text hsp, wsTokens_append_space text sp hsp⟩
  · intro sp text2 hne hsp
    simp only [tokens_eq_wsTokens]
    cases sp with
    | nil => exact absurd rfl hne
    | cons c cs =>
      rw [List.append_assoc, List.cons_append,
        wsTokens_append_sep text _ c (hsp c (List.mem_cons_self _ _)),
        wsTokens_space_append cs text2 (fun d hd => hsp d (List.mem_cons_of_mem _ hd))]
  · intro hsp
    have ht : tokens text = [] := by
      rw [tokens_eq_wsTokens]; exact wsTokens_all_space text hsp
    refine ⟨ht, fun wc sw => ?_⟩
    rw [buildWordMap_eq_foldl, ← tokens_eq_wsTokens, ht]
    rfl

set_option maxRecDepth 100000 in
/-- C15, witness: the text of two spaces, `ab`, tab and space, `c`, newline has
the tokens `ab` and `c`; a whitespace-only text has none. -/
theorem buildWordMap_tokens_witness :
    tokens (ascii "  ab\t c\n") = [ascii "ab", ascii "c"] ∧
    MaximalRuns (ascii "  ab\t c\n") [ascii "ab", ascii "c"] ∧
    (∀ c ∈ ascii " \t\n", isspace c = true) ∧
    tokens (ascii " \t\n" ++ ascii "ab c") = tokens (ascii "ab c") ∧
    tokens (ascii "ab c" ++ ascii " \t\n") = tokens (ascii "ab c") ∧
    tokens (ascii " \t\n") = [] ∧
    buildWordMap (ascii " \t\n") [] [] = [] := by
  have h := (buildWordMap_tokens (ascii " \t\n")).2.2.2.2.2.2 (by decide)
  have h2 := (buildWordMap_tokens (ascii "ab c")).2.2.2.2.1 (ascii " \t\n") (by decide)
  have h3 := (buildWordMap_tokens (ascii "  ab\t c\n")).2.1
  have h4 : tokens (ascii "  ab\t c\n") = [ascii "ab", ascii "c"] := by decide
  rw [h4] at h3
  exact ⟨h4, h3, by decide, h2.1, h2.2, h.1, h.2 [] []⟩

/-! ## The prefix as a filter on the map -/

/-- Where `strncmp` over the length of the second string finds no difference, the
first string starts with the bytes of the second up to its first NUL. -/
theorem strncmp_eq_zero_takeWhile (pfx word : Str)
    (h : strncmp (c_str word) (c_str pfx) pfx.length = 0) :
    pfx.takeWhile (fun c => decide (c ≠ 0)) <+: word := by
  induction pfx generalizing word with
  | nil => simp
  | cons b pfx ih =>
    by_cases hb : b = 0
    · simp [List.takeWhile, hb]
    · cases word with
      | nil =>
        exfalso
        have hv : ¬ (b.val : Int) = 0 := by
          intro h0; apply hb; apply Fin.ext; simpa using h0
        have hb2 : ¬ (0 : Byte) = b := fun h0 => hb h0.symm
        simp [c_str, strncmp, hb2] at h
        omega
      | cons a word =>
        by_cases hab : a = b
        · subst hab
          have h2 : strncmp (c_str word) (c_str pfx) pfx.length = 0 := by
            simpa [c_str, strncmp, hb] using h
          have h3 := ih word h2
          simp only [List.takeWhile, hb, ne_eq, not_false_eq_true, decide_True]
          exact (List.prefix_cons_inj a).2 h3
        · exfalso
          have hv : (a.val : Int) - (b.val : Int) ≠ 0 := by
            intro h0; apply hab; apply Fin.ext; omega
          simp [c_str, strncmp, hab, hv] at h

theorem goodWord_strncmp (word pfx : Str) (h : goodWord word pfx = true) :
    pfx = [] ∨ strncmp (c_str word) (c_str pfx) pfx.length = 0 := by
  by_cases hp : pfx = []
  · exact Or.inl hp
  · right
    by_contra hne
    obtain ⟨h1, h2, _⟩ := goodWord_sound word pfx h
    have h2b : IGNORES.any (fun ignore => word == ignore) = false := by
      rw [List.any_eq_false]
      intro s hs
      simpa using h2 s hs
    simp [goodWord, h1, h2b, hp, hne] at h

/-- An accepted word holds the bytes of the prefix up to its first NUL, so these
bytes are letters a-z. -/
theorem goodWord_takeWhile (word pfx : Str) (h : goodWord word pfx = true) :
    ∀ c ∈ pfx.takeWhile (fun c => decide (c ≠ 0)), 97 ≤ c.val ∧ c.val ≤ 122 := by
  intro c hc
  rcases goodWord_strncmp word pfx h with hp | hs
  · subst hp; simp at hc
  · exact (goodWord_sound word pfx h).2.2 c
      ((strncmp_eq_zero_takeWhile pfx word hs).subset hc)

theorem keys_eq_nil (m : WordMap) (h : ∀ k, k ∉ m.keys) : m = [] := by
  cases m with
  | nil => rfl
  | cons e rest => exact absurd (by simp [WordMap.keys]) (h e.1)

/-- C16 (amended): for every text and every prefix in which a byte outside a-z
comes before the first NUL byte (anywhere, for a prefix without a NUL byte),
`buildWordMap` yields the empty map from the empty map, and a run of `main`
configured with this prefix prints no report line. -/
theorem buildWordMap_startswith_not_lower (text pfx : Str)
    (h : ∃ c ∈ pfx.takeWhile (fun c => decide (c ≠ 0)), ¬ (97 ≤ c.val ∧ c.val ≤ 122)) :
    buildWordMap text [] pfx = [] ∧
    (∀ (opts : List Opt) (cfg : Config) (lastArg : Str) (fs : FileSystem),
      parseOptions opts {} = .ok cfg → cfg.startswith = pfx →
      reportEntries (main opts lastArg fs).1 = []) := by
  have hempty : ∀ t : Str, buildWordMap t [] pfx = [] := by
    intro t
    apply keys_eq_nil
    intro k hk
    rcases mem_keys_buildWordMap t [] pfx k hk with hk2 | hg
    · simp [WordMap.keys] at hk2
    · obtain ⟨c, hc, hbad⟩ := h
      exact hbad (goodWord_takeWhile k pfx hg c hc)
  refine ⟨hempty text, ?_⟩
  intro opts cfg lastArg fs hparse hpfx
  rcases reportEntries_main opts lastArg fs with h0 | ⟨cfg2, t, hparse2, h0⟩
  · exact h0
  · rw [hparse] at hparse2
    have hc : cfg2 = cfg := by
      injection hparse2 with h2
      exact h2.symm
    subst hc
    rw [h0, hpfx, hempty t]
    rfl

/-- C16, witness: the prefix `La` on the usage example of the source. -/
theorem buildWordMap_startswith_not_lower_witness :
    (∃ c ∈ (ascii "La").takeWhile (fun c => decide (c ≠ 0)), ¬ (97 ≤ c.val ∧ c.val ≤ 122)) ∧
    buildWordMap
      (ascii "my dog is lazy, labeled like larry, larry likes larry and labeled larry")
      [] (ascii "La") = [] :=
  ⟨by decide,
   (buildWordMap_startswith_not_lower
     (ascii "my dog is lazy, labeled like larry, larry likes larry and labeled larry")
     (ascii "La") (by decide)).1⟩

/-- C16, counterexample: the prefix `ab\0c` (four bytes, the third a NUL) is not
empty and holds a byte outside a-z, and the text `ab` gives a map that is not
empty. -/
theorem buildWordMap_startswith_not_lower_fails_nul :
    ([97, 98, 0, 99] : Str) ≠ [] ∧
    (∃ c ∈ ([97, 98, 0, 99] : Str), ¬ (97 ≤ c.val ∧ c.val ≤ 122)) ∧
    buildWordMap [97, 98] [] [97, 98, 0, 99] ≠ [] := by
  decide

theorem find_eq_some_mem_keys (m : WordMap) (k : Str) (v : Int) (h : m.find k = some v) :
    k ∈ m.keys := by
  by_contra hk
  rw [find_eq_none m k hk] at h
  exact Option.noConfusion h

theorem sorted_cons (k : Str) (v : Int) (rest : WordMap) (h : WordMap.Sorted ((k, v) :: rest)) :
    (∀ k2 ∈ WordMap.keys rest, strLess k k2 = true) ∧ WordMap.Sorted rest ∧
      k ∉ WordMap.keys rest := by
  have hs : (∀ k2 ∈ WordMap.keys rest, strLess k k2 = true) ∧ WordMap.Sorted rest := by
    simpa [WordMap.Sorted, WordMap.keys] using h
  refine ⟨hs.1, hs.2, ?_⟩
  intro hk
  have := hs.1 k hk
  rw [strLess_irrefl] at this
  exact Bool.false_ne_true this

/-- Two maps with the same keys and the same counts are equal. -/
theorem wordMap_ext (m1 m2 : WordMap) (h1 : m1.Sorted) (h2 : m2.Sorted)
    (hk : ∀ k, k ∈ m1.keys ↔ k ∈ m2.keys) (hc : ∀ k, m1.count k = m2.count k) : m1 = m2 := by
  induction m1 generalizing m2 with
  | nil =>
    exact (keys_eq_nil m2 (fun k hk2 => by simpa [WordMap.keys] using (hk k).2 hk2)).symm
  | cons e1 r1 ih =>
    obtain ⟨k1, v1⟩ := e1
    cases m2 with
    | nil =>
      have := (hk k1).1 (by simp [WordMap.keys])
      simp [WordMap.keys] at this
    | cons e2 r2 =>
      obtain ⟨k2, v2⟩ := e2
      obtain ⟨s1, s1r, n1⟩ := sorted_cons k1 v1 r1 h1
      obtain ⟨s2, s2r, n2⟩ := sorted_cons k2 v2 r2 h2
      have hkk : k1 = k2 := by
        by_contra hne
        have a1 : k1 ∈ WordMap.keys r2 := by
          have := (hk k1).1 (by simp [WordMap.keys])
          simp only [WordMap.keys, List.map_cons, List.mem_cons] at this
          rcases this with h | h
          · exact absurd h hne
          · exact h
        have a2 : k2 ∈ WordMap.keys r1 := by
          have := (hk k2).2 (by simp [WordMap.keys])
          simp only [WordMap.keys, List.map_cons, List.mem_cons] at this
          rcases this with h | h
          · exact absurd h.symm hne
          · exact h
        have b1 := s2 k1 a1
        have b2 := s1 k2 a2
        have b3 := strLess_trans k1 k2 k1 b2 b1
        rw [strLess_irrefl] at b3
        exact Bool.false_ne_true b3
      subst hkk
      have hvv : v1 = v2 := by
        have := hc k1
        simpa [WordMap.count, WordMap.find] using this
      subst hvv
      have hrest : r1 = r2 := by
        apply ih r2 s1r s2r
        · intro k
          have hkk2 := hk k
          simp only [WordMap.keys, List.map_cons, List.mem_cons] at hkk2
          constructor
          · intro hk1
            have hne : k ≠ k1 := fun h => n1 (h ▸ hk1)
            rcases hkk2.1 (Or.inr hk1) with h | h
            · exact absurd h hne
            · exact h
          · intro hk1
            have hne : k ≠ k1 := fun h => n2 (h ▸ hk1)
            rcases hkk2.2 (Or.inr hk1) with h | h
            · exact absurd h hne
            · exact h
        · intro k
          by_cases hke : k = k1
          · subst hke
            simp [WordMap.count, find_eq_none r1 k n1, find_eq_none r2 k n2]
          · have := hc k
            simpa [WordMap.count, WordMap.find, hke] using this
      rw [hrest]

theorem find_filter (m : WordMap) (q : Str → Bool) (k : Str) :
    WordMap.find (m.filter (fun e => q e.1)) k = if q k = true then m.find k else none := by
  induction m with
  | nil => simp [WordMap.find]
  | cons e rest ih =>
    obtain ⟨k0, v⟩ := e
    by_cases hq : q k0 = true
    · rw [List.filter_cons_of_pos (by simpa using hq)]
      by_cases hk : k = k0
      · subst hk; simp [WordMap.find, hq]
      · simp only [WordMap.find, hk, if_false, ih]
    · rw [List.filter_cons_of_neg (by simpa using hq)]
      by_cases hk : k = k0
      · subst hk
        simp [ih, hq]
      · simp only [WordMap.find, hk, if_false, ih]

theorem mem_keys_filter (m : WordMap) (q : Str → Bool) (k : Str) :
    k ∈ WordMap.keys (m.filter (fun e => q e.1)) ↔ k ∈ m.keys ∧ q k = true := by
  simp only [WordMap.keys, List.mem_map, List.mem_filter]
  constructor
  · rintro ⟨e, ⟨he, hq⟩, hk⟩
    subst hk
    exact ⟨⟨e, he, rfl⟩, hq⟩
  · rintro ⟨⟨e, he, hk⟩, hq⟩
    subst hk
    exact ⟨e, ⟨he, hq⟩, rfl⟩

theorem sorted_filter (m : WordMap) (q : Str × Int → Bool) (h : m.Sorted) :
    WordMap.Sorted (m.filter q) :=
  List.Pairwise.sublist (List.Sublist.map _ (List.filter_sublist _)) h

theorem sorted_nil : WordMap.Sorted [] := by
  simp [WordMap.Sorted, WordMap.keys]

/-- For a prefix without a NUL byte, `goodWord` is `goodWord` without a prefix
together with the test that the word starts with the prefix. -/
theorem goodWord_startswith (word pfx : Str) (hnul : (0 : Byte) ∉ pfx) :
    goodWord word pfx = (goodWord word [] && decide (word.take pfx.length = pfx)) := by
  have h0 : (0 : Byte) ∉ ([] : Str) := by simp
  have ha := goodWord_eq_true_iff word pfx hnul
  have hb := goodWord_eq_true_iff word [] h0
  rw [Bool.eq_iff_iff, Bool.and_eq_true, decide_eq_true_iff, ha, hb]
  constructor
  · rintro ⟨h1, h2, h3, h4⟩
    refine ⟨⟨h1, h2, Or.inl rfl, h4⟩, ?_⟩
    rcases h3 with h3 | h3
    · simp [h3]
    · exact h3
  · rintro ⟨⟨h1, h2, _, h4⟩, h3⟩
    exact ⟨h1, h2, Or.inr h3, h4⟩

/-- C17 (amended): for every text and every prefix without a NUL byte, the map
built under the prefix is the map built under the empty prefix, restricted to
the keys that start with the prefix, with the same counts. -/
theorem buildWordMap_startswith_filter (text pfx : Str) (hnul : (0 : Byte) ∉ pfx) :
    buildWordMap text [] pfx =
      (buildWordMap text [] []).filter (fun e => decide (e.1.take pfx.length = pfx)) := by
  apply wordMap_ext
  · exact sorted_buildWordMap text [] pfx sorted_nil
  · exact sorted_filter _ _ (sorted_buildWordMap text [] [] sorted_nil)
  · intro k
    rw [mem_keys_filter (buildWordMap text [] [])
      (fun w => decide (w.take pfx.length = pfx)) k]
    rw [buildWordMap_eq_foldl, buildWordMap_eq_foldl, mem_keys_foldl, mem_keys_foldl]
    simp only [WordMap.keys, List.map_nil, List.not_mem_nil, false_or,
      goodWord_startswith k pfx hnul, Bool.and_eq_true, decide_eq_true_iff]
    constructor
    · rintro ⟨t, ht, hn, hg, hp⟩
      exact ⟨⟨t, ht, hn, hg⟩, hp⟩
    · rintro ⟨⟨t, ht, hn, hg⟩, hp⟩
      exact ⟨t, ht, hn, hg, hp⟩
  · intro k
    have hf := find_filter (buildWordMap text [] [])
      (fun w => decide (w.take pfx.length = pfx)) k
    simp only [WordMap.count] at hf ⊢
    rw [hf]
    have c1 := count_foldl (wsTokens text) [] pfx k sorted_nil
    have c2 := count_foldl (wsTokens text) [] [] k sorted_nil
    simp only [WordMap.count] at c1 c2
    rw [buildWordMap_eq_foldl, buildWordMap_eq_foldl, c1]
    by_cases hp : k.take pfx.length = pfx
    · simp only [hp, decide_True, if_true, c2, goodWord_startswith k pfx hnul,
        Bool.and_true]
    · simp [hp, goodWord_startswith k pfx hnul, WordMap.find]

/-- C17, witness: the prefix `la` on the usage example of the source. -/
theorem buildWordMap_startswith_filter_witness :
    (0 : Byte) ∉ ascii "la" ∧
    buildWordMap
      (ascii "my dog is lazy, labeled like larry, larry likes larry and labeled larry")
      [] (ascii "la") =
    (buildWordMap
      (ascii "my dog is lazy, labeled like larry, larry likes larry and labeled larry")
      [] []).filter (fun e => decide (e.1.take (ascii "la").length = ascii "la")) :=
  ⟨by decide,
   buildWordMap_startswith_filter
     (ascii "my dog is lazy, labeled like larry, larry likes larry and labeled larry")
     (ascii "la") (by decide)⟩

/-- C17, counterexample: under the prefix `ab\0c` (four bytes, the third a NUL)
the text `ab` gives the key `ab`, which the restriction of the map built
without a prefix does not have. -/
theorem buildWordMap_startswith_filter_fails_nul :
    buildWordMap [97, 98] [] [97, 98, 0, 99] ≠
      (buildWordMap [97, 98] [] []).filter
        (fun e => decide (e.1.take ([97, 98, 0, 99] : Str).length = [97, 98, 0, 99])) := by
  decide

/-! ## Additivity and case-insensitivity -/

theorem count_buildWordMap (text pfx w : Str) (m : WordMap) (hm : m.Sorted) :
    (buildWordMap text m pfx).count w =
      (fun x => wrapInt (x + 1))^[(wsTokens text).countP
        (fun t => decide (normalize t = w) && goodWord w pfx)] (m.count w) := by
  rw [buildWordMap_eq_foldl, count_foldl _ _ _ _ hm]

theorem count_nil (w : Str) : WordMap.count [] w = 0 := rfl

/-- The final count of a word, from its count in the initial map and its counts
from the two texts alone, when their sum is an `int`. -/
theorem count_additive (t1 t2 pfx w : Str) (m : WordMap) (sep : Byte)
    (hsep : isspace sep = true) (hm : m.Sorted)
    (hlo : -2147483648 ≤
      m.count w + (buildWordMap t1 [] pfx).count w + (buildWordMap t2 [] pfx).count w)
    (hhi : m.count w + (buildWordMap t1 [] pfx).count w + (buildWordMap t2 [] pfx).count w
      < 2147483648) :
    (buildWordMap (t1 ++ sep :: t2) m pfx).count w =
      m.count w + (buildWordMap t1 [] pfx).count w + (buildWordMap t2 [] pfx).count w := by
  rw [count_buildWordMap _ _ _ m hm, wsTokens_append_sep t1 t2 sep hsep, List.countP_append]
  rw [count_buildWordMap _ _ _ [] sorted_nil, count_buildWordMap _ _ _ [] sorted_nil,
    count_nil, iterate_wrapInt_zero, iterate_wrapInt_zero] at hlo hhi ⊢
  generalize (wsTokens t1).countP (fun t => decide (normalize t = w) && goodWord w pfx) = n1
    at hlo hhi ⊢
  generalize (wsTokens t2).countP (fun t => decide (normalize t = w) && goodWord w pfx) = n2
    at hlo hhi ⊢
  generalize m.count w = a at hlo hhi ⊢
  by_cases h0 : n1 + n2 = 0
  · have h1 : n1 = 0 := by omega
    have h2 : n2 = 0 := by omega
    subst h1; subst h2
    simp [wrapInt]
  · rw [iterate_wrapInt _ _ (Nat.pos_of_ne_zero h0)]
    push_cast
    unfold wrapInt at hlo hhi ⊢
    omega

/-- C18 (amended): on `t1`, a whitespace byte and `t2`, `buildWordMap` gives the
map that it gives on `t2` when started from its result on `t1`; the final count
of a word is its count in the initial map plus its count from `t1` alone plus
its count from `t2` alone whenever this sum is an `int`, that is, lies between
`-2^31` and `2^31 - 1`; and two texts with the same tokens in another order
give the same map. -/
theorem buildWordMap_additive (t1 t2 pfx : Str) (m : WordMap) (sep : Byte)
    (hsep : isspace sep = true) (hm : m.Sorted) :
    buildWordMap (t1 ++ sep :: t2) m pfx = buildWordMap t2 (buildWordMap t1 m pfx) pfx ∧
    (∀ w : Str,
      -2147483648 ≤
        m.count w + (buildWordMap t1 [] pfx).count w + (buildWordMap t2 [] pfx).count w →
      m.count w + (buildWordMap t1 [] pfx).count w + (buildWordMap t2 [] pfx).count w
        < 2147483648 →
      (buildWordMap (t1 ++ sep :: t2) m pfx).count w =
        m.count w + (buildWordMap t1 [] pfx).count w + (buildWordMap t2 [] pfx).count w) ∧
    (∀ text text2 : Str, (tokens text).Perm (tokens text2) →
      buildWordMap text m pfx = buildWordMap text2 m pfx) := by
  refine ⟨?_, ?_, ?_⟩
  · simp only [buildWordMap_eq_foldl, wsTokens_append_sep t1 t2 sep hsep, List.foldl_append]
  · intro w hlo hhi
    exact count_additive t1 t2 pfx w m sep hsep hm hlo hhi
  · intro text text2 hperm
    rw [tokens_eq_wsTokens, tokens_eq_wsTokens] at hperm
    apply wordMap_ext
    · exact sorted_buildWordMap text m pfx hm
    · exact sorted_buildWordMap text2 m pfx hm
    · intro k
      rw [buildWordMap_eq_foldl, buildWordMap_eq_foldl, mem_keys_foldl, mem_keys_foldl]
      constructor
      · rintro (h | ⟨t, ht, h⟩)
        · exact Or.inl h
        · exact Or.inr ⟨t, hperm.mem_iff.1 ht, h⟩
      · rintro (h | ⟨t, ht, h⟩)
        · exact Or.inl h
        · exact Or.inr ⟨t, hperm.mem_iff.2 ht, h⟩
    · intro k
      rw [count_buildWordMap _ _ _ m hm, count_buildWordMap _ _ _ m hm, hperm.countP_eq]

set_option maxRecDepth 100000 in
/-- C18, witness: the texts `dog cat` and `Dog!`, separated by a newline, on a
map that holds `cat` twice. -/
theorem buildWordMap_additive_witness :
    isspace 10 = true ∧ WordMap.Sorted [(ascii "cat", 2)] ∧
    buildWordMap (ascii "dog cat" ++ 10 :: ascii "Dog!") [(ascii "cat", 2)] [] =
      [(ascii "cat", 3), (ascii "dog", 2)] ∧
    buildWordMap (ascii "dog cat" ++ 10 :: ascii "Dog!") [(ascii "cat", 2)] [] =
      buildWordMap (ascii "Dog!") (buildWordMap (ascii "dog cat") [(ascii "cat", 2)] []) [] ∧
    (buildWordMap (ascii "dog cat" ++ 10 :: ascii "Dog!") [(ascii "cat", 2)] []).count
        (ascii "cat") =
      WordMap.count [(ascii "cat", 2)] (ascii "cat") +
        (buildWordMap (ascii "dog cat") [] []).count (ascii "cat") +
        (buildWordMap (ascii "Dog!") [] []).count (ascii "cat") ∧
    (tokens (ascii "dog cat")).Perm (tokens (ascii "cat  dog")) ∧
    buildWordMap (ascii "dog cat") [(ascii "cat", 2)] [] =
      buildWordMap (ascii "cat  dog") [(ascii "cat", 2)] [] := by
  have hs : WordMap.Sorted [(ascii "cat", 2)] := by
    simp [WordMap.Sorted, WordMap.keys]
  have hp : (tokens (ascii "dog cat")).Perm (tokens (ascii "cat  dog")) := by decide
  have h := buildWordMap_additive (ascii "dog cat") (ascii "Dog!") [] [(ascii "cat", 2)] 10
    (by decide) hs
  exact ⟨by decide, hs, by decide, h.1, h.2.1 (ascii "cat") (by decide) (by decide), hp,
    h.2.2 _ _ hp⟩

set_option maxRecDepth 100000 in
/-- C18, counterexample: on the map that holds `dog` with the count `2^31 - 1`,
the text `dog`, a space and the empty text give `dog` the count `-2^31`, not
the sum of `2^31 - 1`, one and zero. -/
theorem buildWordMap_additive_fails_overflow :
    isspace 32 = true ∧ WordMap.Sorted [(ascii "dog", 2147483647)] ∧
    (buildWordMap (ascii "dog" ++ 32 :: []) [(ascii "dog", 2147483647)] []).count
        (ascii "dog") = -2147483648 ∧
    (buildWordMap (ascii "dog" ++ 32 :: []) [(ascii "dog", 2147483647)] []).count
        (ascii "dog") ≠
      WordMap.count [(ascii "dog", 2147483647)] (ascii "dog") +
        (buildWordMap (ascii "dog") [] []).count (ascii "dog") +
        (buildWordMap [] [] []).count (ascii "dog") := by
  refine ⟨by decide, by simp [WordMap.Sorted, WordMap.keys], by decide, by decide⟩

set_option maxRecDepth 100000 in
theorem isspace_tolower (c : Byte) : isspace (tolower c) = isspace c := by
  revert c; decide

set_option maxRecDepth 100000 in
theorem tolower_tolower (c : Byte) : tolower (tolower c) = tolower c := by
  revert c; decide

theorem splitOnP_map_tolower (s : Str) :
    (s.map tolower).splitOnP isspace = (s.splitOnP isspace).map (List.map tolower) := by
  induction s with
  | nil => simp [List.splitOnP_nil]
  | cons c cs ih =>
    simp only [List.map_cons, List.splitOnP_cons, isspace_tolower, ih]
    by_cases hc : isspace c = true
    · simp [hc]
    · simp only [hc, if_false]
      cases hs : List.splitOnP isspace cs with
      | nil => exact absurd hs (List.splitOnP_ne_nil _ _)
      | cons x xs => simp [List.modifyHead]

theorem wsTokens_map_tolower (s : Str) :
    wsTokens (s.map tolower) = (wsTokens s).map (List.map tolower) := by
  simp only [wsTokens, splitOnP_map_tolower, List.filter_map]
  congr 1
  apply List.filter_congr
  intro t _
  cases t <;> rfl

theorem normalize_map_tolower (t : Str) : normalize (t.map tolower) = normalize t := by
  simp only [normalize, List.map_map]
  congr 1
  apply List.map_congr_left
  intro c _
  exact tolower_tolower c

/-- C19: counting is case-insensitive in the text: for every text, every prefix
and every initial map, `buildWordMap` gives the same map on the text with the
letters A-Z replaced by a-z as on the text itself. -/
theorem buildWordMap_map_tolower (text pfx : Str) (m : WordMap) :
    buildWordMap (text.map tolower) m pfx = buildWordMap text m pfx := by
  rw [buildWordMap_eq_foldl, buildWordMap_eq_foldl, wsTokens_map_tolower, List.foldl_map]
  congr 1
  funext wc t
  simp only [processWord, normalize_map_tolower]

/-! ## The counts as `int` values -/

theorem wsTokens_replicate (n : Nat) :
    wsTokens (List.replicate n ([98, 32] : Str)).flatten = List.replicate n ([98] : Str) := by
  induction n with
  | zero => exact wsTokens_nil
  | succ n ih =>
    have h1 : (List.replicate (n + 1) ([98, 32] : Str)).flatten =
        ([98] : Str) ++ (32 : Byte) :: (List.replicate n ([98, 32] : Str)).flatten := by
      simp [List.replicate_succ]
    have h2 : wsTokens ([98] : Str) = [[98]] := by decide
    rw [h1, wsTokens_append_sep _ _ 32 (by decide), ih, h2, List.replicate_succ]
    rfl

theorem countP_replicate_true (n : Nat) (t : Str) (q : Str → Bool) (h : q t = true) :
    (List.replicate n t).countP q = n := by
  induction n with
  | zero => rfl
  | succ n ih => rw [List.replicate_succ, List.countP_cons_of_pos _ _ h, ih]

/-- The count of `b` after a text of `n` tokens `b`. -/
theorem count_replicate (n : Nat) :
    (buildWordMap (List.replicate n ([98, 32] : Str)).flatten [] []).count [98] =
      wrapInt n ∧
    (wsTokens (List.replicate n ([98, 32] : Str)).flatten).countP
      (fun t => decide (normalizeSpec t = [98]) && goodWord [98] []) = n := by
  have hq : (fun t : Str => decide (normalizeSpec t = [98]) && goodWord [98] []) [98] = true := by
    decide
  have hc : (wsTokens (List.replicate n ([98, 32] : Str)).flatten).countP
      (fun t => decide (normalizeSpec t = [98]) && goodWord [98] []) = n := by
    rw [wsTokens_replicate]
    exact countP_replicate_true n [98] _ hq
  refine ⟨?_, hc⟩
  rw [count_buildWordMap_nil, hc]

/-- C2, counterexample: in the text that repeats the word `b` and a space `2^31`
times, `b` has `2^31` accepted occurrences, and its count in the map is
`-2^31`: the last increment overflows the `int`. -/
theorem buildWordMap_count_fails_overflow :
    (wsTokens (List.replicate 2147483648 ([98, 32] : Str)).flatten).countP
      (fun t => decide (normalizeSpec t = [98]) && goodWord [98] []) = 2147483648 ∧
    (buildWordMap (List.replicate 2147483648 ([98, 32] : Str)).flatten [] []).count [98] =
      -2147483648 ∧
    (buildWordMap (List.replicate 2147483648 ([98, 32] : Str)).flatten [] []).count [98] ≠
      (((wsTokens (List.replicate 2147483648 ([98, 32] : Str)).flatten).countP
        (fun t => decide (normalizeSpec t = [98]) && goodWord [98] []) : Nat) : Int) := by
  refine ⟨(count_replicate 2147483648).2, ?_, ?_⟩
  · rw [(count_replicate 2147483648).1]
    decide
  · rw [(count_replicate 2147483648).1, (count_replicate 2147483648).2]
    decide

end WordCloud
